import Mathlib

set_option maxHeartbeats 1000000

/-!
Verification of the pcs-chair-scripts repository: a shallow embedding of the
CSV-processing scripts (`papers_needing_work.py`, `papers_needing_review_work.py`,
`extract_paper_scores.py`, `analyze_reviewers.py`, `find_available_declines.py`)
and proofs about their row filters, aggregation counters, score classification,
lookup-table intersection, output ordering and the orchestrator join.

Rows of a CSV table are modelled as `List String` (the fields of a data row),
the header as a `List String`, and Python dictionaries as association lists in
insertion order.  Fallible operations (Python exceptions such as `IndexError`
or `KeyError`) are modelled with `Except String`.
-/

namespace PcsChair

/-- Python list indexing `row[i]`: nonnegative indices from the front, negative
indices from the end, out-of-range raises `IndexError` (modelled as an error). -/
def pyGet (row : List String) (i : Int) : Except String String :=
  let n : Int := row.length
  if 0 ≤ i ∧ i < n then Except.ok (row.getD i.toNat "")
  else if -n ≤ i ∧ i < 0 then Except.ok (row.getD (i + n).toNat "")
  else Except.error "IndexError: list index out of range"

/-! ### Association-list model of Python dictionaries -/

/-- First value stored under key `k` (Python `d[k]` when present). -/
def dGet? {α : Type} (d : List (String × α)) (k : String) : Option α :=
  (d.find? (fun p => p.1 == k)).map (fun p => p.2)

/-- Python `k in d`. -/
def dHas {α : Type} (d : List (String × α)) (k : String) : Bool :=
  (dGet? d k).isSome

/-- Python `d.get(k, v0)`. -/
def dGetD {α : Type} (d : List (String × α)) (k : String) (v0 : α) : α :=
  (dGet? d k).getD v0

/-- Apply `f` to the value stored under `k` (Python `d[k] = f(d[k])`). -/
def dUpd {α : Type} (d : List (String × α)) (k : String) (f : α → α) :
    List (String × α) :=
  d.map (fun p => if p.1 = k then (p.1, f p.2) else p)

/-- Python `d[k] = v` (overwrite in place, or append a fresh key at the end). -/
def dSet {α : Type} (d : List (String × α)) (k : String) (v : α) :
    List (String × α) :=
  if dHas d k then dUpd d k (fun _ => v) else d ++ [(k, v)]

/-- The keys of a dictionary, in insertion order. -/
def dKeys {α : Type} (d : List (String × α)) : List String :=
  d.map Prod.fst

/-! ### Sorting (Python `sorted(d.items())` and `l.sort()`)

Python compares strings lexicographically by code point.  The executable
comparison `lexLt` below is that order on the character lists; it is proved
equivalent to Mathlib's `String` order so that theorems can be stated with
the ordinary `<` on strings. -/

/-- Lexicographic code-point comparison of character lists (Python `<`). -/
def lexLt : List Char → List Char → Bool
  | [], [] => false
  | [], _ :: _ => true
  | _ :: _, [] => false
  | a :: as, b :: bs => decide (a < b) || (a == b && lexLt as bs)

theorem lexLt_irrefl : ∀ x : List Char, lexLt x x = false
  | [] => rfl
  | a :: as => by simp [lexLt, lexLt_irrefl as]

theorem lexLt_trans : ∀ x y z : List Char,
    lexLt x y = true → lexLt y z = true → lexLt x z = true
  | [], _ :: _, _ :: _, _, _ => rfl
  | [], [], _, h, _ => by simp [lexLt] at h
  | [], _ :: _, [], _, h => by simp [lexLt] at h
  | _ :: _, [], _, h, _ => by simp [lexLt] at h
  | _ :: _, _ :: _, [], _, h => by simp [lexLt] at h
  | a :: as, b :: bs, c :: cs, h1, h2 => by
    simp only [lexLt, Bool.or_eq_true, Bool.and_eq_true, decide_eq_true_eq,
      beq_iff_eq] at h1 h2 ⊢
    rcases h1 with h1 | ⟨rfl, h1⟩
    · rcases h2 with h2 | ⟨rfl, _⟩
      · exact Or.inl (lt_trans h1 h2)
      · exact Or.inl h1
    · rcases h2 with h2 | ⟨rfl, h2⟩
      · exact Or.inl h2
      · exact Or.inr ⟨rfl, lexLt_trans as bs cs h1 h2⟩

theorem lexLt_antisymm : ∀ x y : List Char,
    lexLt x y = false → lexLt y x = false → x = y
  | [], [], _, _ => rfl
  | [], _ :: _, h, _ => by simp [lexLt] at h
  | _ :: _, [], _, h => by simp [lexLt] at h
  | a :: as, b :: bs, h1, h2 => by
    simp only [lexLt, Bool.or_eq_false_iff, Bool.and_eq_false_imp,
      decide_eq_false_iff_not, beq_iff_eq] at h1 h2
    have hab : a = b := le_antisymm (not_lt.mp h2.1) (not_lt.mp h1.1)
    subst hab
    rw [lexLt_antisymm as bs (h1.2 rfl) (h2.2 rfl)]

/-- Order on dictionary items by key (Python tuple comparison starts with the
key; keys are distinct in a dictionary, so the key comparison decides). -/
def keyLe {α : Type} (a b : String × α) : Prop := lexLt b.1.data a.1.data = false

instance {α : Type} : DecidableRel (α := String × α) keyLe :=
  fun a b => inferInstanceAs (Decidable (lexLt b.1.data a.1.data = false))

instance {α : Type} : IsTotal (String × α) keyLe :=
  ⟨fun a b => by
    by_cases h : lexLt b.1.data a.1.data = false
    · exact Or.inl h
    · refine Or.inr ?_
      by_contra h2
      unfold keyLe at h2
      rw [Bool.not_eq_false] at h h2
      have := lexLt_trans _ _ _ h h2
      rw [lexLt_irrefl] at this
      exact Bool.noConfusion this⟩

instance {α : Type} : IsTrans (String × α) keyLe :=
  ⟨fun a b c h1 h2 => by
    unfold keyLe at h1 h2 ⊢
    by_contra h3
    rw [Bool.not_eq_false] at h3
    by_cases hbc : lexLt b.1.data c.1.data = true
    · have := lexLt_trans _ _ _ hbc h3
      rw [h1] at this
      exact Bool.noConfusion this
    · rw [Bool.not_eq_true] at hbc
      have hbceq : b.1.data = c.1.data := lexLt_antisymm _ _ hbc h2
      rw [← hbceq] at h3
      rw [h1] at h3
      exact Bool.noConfusion h3⟩

/-- Python `sorted(d.items())`. -/
def sortByKey {α : Type} (d : List (String × α)) : List (String × α) :=
  List.insertionSort keyLe d

/-- The order used by Python `l.sort()` on strings. -/
def strLe (a b : String) : Prop := lexLt b.data a.data = false

instance : DecidableRel strLe :=
  fun a b => inferInstanceAs (Decidable (lexLt b.data a.data = false))

instance : IsTotal String strLe :=
  ⟨fun a b => by
    by_cases h : lexLt b.data a.data = false
    · exact Or.inl h
    · refine Or.inr ?_
      by_contra h2
      unfold strLe at h2
      rw [Bool.not_eq_false] at h h2
      have := lexLt_trans _ _ _ h h2
      rw [lexLt_irrefl] at this
      exact Bool.noConfusion this⟩

instance : IsTrans String strLe :=
  ⟨fun a b c h1 h2 => by
    unfold strLe at h1 h2 ⊢
    by_contra h3
    rw [Bool.not_eq_false] at h3
    by_cases hbc : lexLt b.data c.data = true
    · have := lexLt_trans _ _ _ hbc h3
      rw [h1] at this
      exact Bool.noConfusion this
    · rw [Bool.not_eq_true] at hbc
      have hbceq : b.data = c.data := lexLt_antisymm _ _ hbc h2
      rw [← hbceq] at h3
      rw [h1] at h3
      exact Bool.noConfusion h3⟩

/-- Python `l.sort()` on a list of strings. -/
def sortStr (l : List String) : List String :=
  List.insertionSort strLe l

/-! ### The score regular expression `\d+\.\d+`

All scripts decide "review completed" with Python `re.match(r'\d+\.\d+', score)`.
`re.match` anchors at the *start* of the string only: it succeeds exactly when
the string begins with one or more digits, a dot, and at least one more digit;
arbitrary characters may follow.  Because a greedy `\d+` can only stop at a
non-digit, the match succeeds iff the maximal leading digit run is nonempty and
is followed by `'.'` and a digit. -/

/-- After the digit run, the regex requires `'.'` and one more digit. -/
def dotDigitHead : List Char → Bool
  | '.' :: c :: _ => c.isDigit
  | _ => false

/-- Python `re.match(r'\d+\.\d+', s) is not None`. -/
def matchDecimalPrefix (s : String) : Bool :=
  !(s.data.takeWhile Char.isDigit).isEmpty &&
    dotDigitHead (s.data.dropWhile Char.isDigit)

/-- An independent characterisation of the pattern the code's classification
implements (used by the amended claim C3): the string begins with a nonempty
digit run, then `'.'`, then a digit — anything may follow. -/
def DecPrefixSpec (s : String) : Prop :=
  ∃ d1 c rest, s.data = d1 ++ '.' :: c :: rest ∧ d1 ≠ [] ∧
    (∀ ch ∈ d1, ch.isDigit = true) ∧ c.isDigit = true

/-- Definition following the spec's words, for comparison: the *entire* trimmed
content is one or more digits, a literal decimal point, one or more digits,
and nothing else. -/
def strictDecimalSpec (s : String) : Bool :=
  !(s.data.takeWhile Char.isDigit).isEmpty &&
    (match s.data.dropWhile Char.isDigit with
     | '.' :: rest => !rest.isEmpty && rest.all Char.isDigit
     | _ => false)

instance {ε α : Type} [DecidableEq ε] [DecidableEq α] : DecidableEq (Except ε α) :=
  fun x y =>
    match x, y with
    | Except.ok a, Except.ok b =>
      if h : a = b then Decidable.isTrue (congrArg Except.ok h)
      else Decidable.isFalse (fun hc => h (Except.ok.inj hc))
    | Except.error a, Except.error b =>
      if h : a = b then Decidable.isTrue (congrArg Except.error h)
      else Decidable.isFalse (fun hc => h (Except.error.inj hc))
    | Except.ok _, Except.error _ => Decidable.isFalse (fun hc => Except.noConfusion hc)
    | Except.error _, Except.ok _ => Decidable.isFalse (fun hc => Except.noConfusion hc)

/-- Python `str.strip()`: drop whitespace from both ends. -/
def pyStrip (s : String) : String :=
  String.mk (((s.data.dropWhile Char.isWhitespace).reverse.dropWhile
    Char.isWhitespace).reverse)

/-- Helper for Python `str.split(',')`. -/
def splitCommaAux : List Char → List Char → List (List Char)
  | [], acc => [acc.reverse]
  | c :: rest, acc =>
    if c = ',' then acc.reverse :: splitCommaAux rest []
    else splitCommaAux rest (c :: acc)

/-- Python `s.split(',')` (note `"".split(',') == [""]`). -/
def pySplitComma (s : String) : List String :=
  (splitCommaAux s.data []).map String.mk

/-! ### `papers_needing_work.py`

`analyze_csv` resolves `Pname`, `Decision`, `Subcommittee` and the paired
`S<n>name`/`S<n>score` and `E<n>name`/`E<n>score` column families from the
header, filters rows by decision status, and accumulates per-`Pname` counters.
All the per-key dictionaries are initialised together on first sight of a key,
so they share one key set and are modelled as a single dictionary of records. -/

/-- Bool test: `cs` begins with the characters `pre`. -/
def startsWithChars (cs pre : List Char) : Bool := cs.take pre.length == pre

/-- Python `re.match(r'S\d+name', col)` (or `E`…): an anchored prefix match; on
success, the digit run that `re.search(r'S(\d+)name', col).group(1)` extracts. -/
def matchIdxName (letter : Char) (s : String) : Option String :=
  match s.data with
  | c :: r =>
    if c = letter then
      if !(r.takeWhile Char.isDigit).isEmpty &&
          startsWithChars (r.dropWhile Char.isDigit) ['n', 'a', 'm', 'e'] then
        some (String.mk (r.takeWhile Char.isDigit))
      else none
    else none
  | [] => none

/-- Resolved column roles of `papers_needing_work.analyze_csv`
(`-1` means "not found", exactly as in the script). -/
structure PnwCols where
  s1 : Int
  dec : Int
  sub : Int
  pcCols : List (Nat × Nat)
  revCols : List (Nat × Nat)
deriving DecidableEq, Repr

/-- Python `header.index(nm)` (first exact match). -/
def findColIdx (header : List String) (nm : String) : Option Nat :=
  header.findIdx? (fun c => c == nm)

/-- The header scan of `papers_needing_work.analyze_csv` (the `elif` chain over
`enumerate(header)`); `i` is the index of the first column of `cols`. -/
def pnwResolveAux (header : List String) : PnwCols → Nat → List String → PnwCols
  | acc, _, [] => acc
  | acc, i, col :: cols =>
    let acc' :=
      if col = "Pname" then { acc with s1 := (i : Int) }
      else if col = "Decision" then { acc with dec := (i : Int) }
      else if col = "Subcommittee" then { acc with sub := (i : Int) }
      else match matchIdxName 'S' col with
        | some num =>
          match findColIdx header ("S" ++ num ++ "score") with
          | some j => { acc with pcCols := acc.pcCols ++ [(i, j)] }
          | none => acc
        | none =>
          match matchIdxName 'E' col with
          | some num =>
            match findColIdx header ("E" ++ num ++ "score") with
            | some j => { acc with revCols := acc.revCols ++ [(i, j)] }
            | none => acc
          | none => acc
    pnwResolveAux header acc' (i + 1) cols

def pnwResolve (header : List String) : PnwCols :=
  pnwResolveAux header ⟨-1, -1, -1, [], []⟩ 0 header

/-- The row filter of `papers_needing_work` (and `papers_needing_review_work`):
`decision_value = row[decision_index].strip()` then membership in the
allow-list. -/
def pnwKeep (raw : String) : Bool :=
  ["RER", "ERER"].contains (pyStrip raw)

/-- One reviewer (name, score) column pair of the counting loop. -/
def revCell (row : List String) (acc : Int × Int × Int) (p : Nat × Nat) :
    Except String (Int × Int × Int) := do
  let nameV ← pyGet row (p.1 : Int)
  if pyStrip nameV ≠ "" then do
    let scoreV ← pyGet row (p.2 : Int)
    let score := pyStrip scoreV
    if score = "T" then pure (acc.1, acc.2.1 + 1, acc.2.2)
    else pure (acc.1 + 1, acc.2.1,
      acc.2.2 + (if matchDecimalPrefix score then 1 else 0))
  else pure acc

/-- The `(confirmed_reviewers, tentative_reviewers, completed_reviewers)` of a row. -/
def countRev (cols : List (Nat × Nat)) (row : List String) :
    Except String (Int × Int × Int) :=
  cols.foldlM (revCell row) (0, 0, 0)

/-- One PC (name, score) column pair of the `pc_completed` loop. -/
def pcCell (row : List String) (acc : Int) (p : Nat × Nat) : Except String Int := do
  let nameV ← pyGet row (p.1 : Int)
  if pyStrip nameV ≠ "" then do
    let scoreV ← pyGet row (p.2 : Int)
    pure (acc + (if matchDecimalPrefix (pyStrip scoreV) then 1 else 0))
  else pure acc

/-- The `pc_completed` count of a row. -/
def countPc (cols : List (Nat × Nat)) (row : List String) : Except String Int :=
  cols.foldlM (pcCell row) 0

/-- The per-key counters of `papers_needing_work` (one record per group key;
all the script's dictionaries are initialised together). -/
structure PnwStats where
  sub : String
  low : Int
  total : Int
  tent : Int
  miss : Int
  assigned : Int
  over : Int
  comp : Int
  pcComp : Int
deriving DecidableEq, Repr

def pnwInit (sub : String) : PnwStats := ⟨sub, 0, 0, 0, 0, 0, 0, 0, 0⟩

/-- The per-row counter increments of `papers_needing_work`. -/
def pnwApply (conf tent comp pcComp : Int) (g : PnwStats) : PnwStats :=
  { g with
    miss := g.miss + max 0 (2 - (conf + tent)),
    assigned := g.assigned + conf,
    tent := g.tent + tent,
    total := g.total + 1,
    low := g.low + (if conf < 2 then 1 else 0),
    over := g.over + (if conf < 2 then 0 else if 2 < conf then conf - 2 else 0),
    comp := g.comp + comp,
    pcComp := g.pcComp + pcComp }

/-- Processing of one data row of `papers_needing_work.analyze_csv`. -/
def pnwStep (c : PnwCols) (st : List (String × PnwStats)) (row : List String) :
    Except String (List (String × PnwStats)) := do
  let dvRaw ← pyGet row c.dec
  if pnwKeep dvRaw then do
    let k ← pyGet row c.s1
    let st1 ←
      if dHas st k then pure st
      else do
        let s ← pyGet row c.sub
        pure (st ++ [(k, pnwInit s)])
    let cnt ← countRev c.revCols row
    let pcComp ← countPc c.pcCols row
    pure (dUpd st1 k (pnwApply cnt.1 cnt.2.1 cnt.2.2 pcComp))
  else pure st

def pnameErrMsg : String := "Error: The CSV file must contain an 'Pname' column."

def decisionErrMsg : String := "Error: The CSV file must contain a 'Decision' column."

/-- Model of `papers_needing_work.analyze_csv`: resolve the header, abort on a missing
mandatory column, fold the rows, and emit one output row per group key in
sorted key order. -/
def pnwRun (header : List String) (rows : List (List String)) :
    Except String (List (String × PnwStats)) :=
  let c := pnwResolve header
  if c.s1 = -1 then Except.error pnameErrMsg
  else if c.dec = -1 then Except.error decisionErrMsg
  else do
    let st ← rows.foldlM (pnwStep c) []
    pure (sortByKey st)

/-- The key under which a row is counted, when the row passes the filter
(used to state claims about retained rows). -/
def retainedKeyOf (c : PnwCols) (row : List String) : Option String :=
  match pyGet row c.dec with
  | Except.ok d => if pnwKeep d then (pyGet row c.s1).toOption else none
  | Except.error _ => none

/-- The first retained row of the input whose group key is `k`. -/
def firstRetained (c : PnwCols) (rows : List (List String)) (k : String) :
    Option (List String) :=
  rows.find? (fun r => retainedKeyOf c r == some k)

/-! ### `papers_needing_review_work.py`

Tallies completed/assigned reviews per reviewer name, separately for the PC
(`S<n>name`) and external (`E<n>name`) column families, then emits the PC
block followed by the external block, each sorted by name. -/

structure RwCols where
  dec : Int
  pcCols : List (Nat × Nat)
  revCols : List (Nat × Nat)
deriving DecidableEq, Repr

def rwResolveAux (header : List String) : RwCols → Nat → List String → RwCols
  | acc, _, [] => acc
  | acc, i, col :: cols =>
    let acc' :=
      if col = "Decision" then { acc with dec := (i : Int) }
      else match matchIdxName 'S' col with
        | some num =>
          match findColIdx header ("S" ++ num ++ "score") with
          | some j => { acc with pcCols := acc.pcCols ++ [(i, j)] }
          | none => acc
        | none =>
          match matchIdxName 'E' col with
          | some num =>
            match findColIdx header ("E" ++ num ++ "score") with
            | some j => { acc with revCols := acc.revCols ++ [(i, j)] }
            | none => acc
          | none => acc
    rwResolveAux header acc' (i + 1) cols

def rwResolve (header : List String) : RwCols :=
  rwResolveAux header ⟨-1, [], []⟩ 0 header

/-- Per-reviewer counters of `papers_needing_review_work`: completed reviews
and total assigned (the two dictionaries of each family are initialised
together and share one key set). -/
structure RwStats where
  comp : Int
  total : Int
deriving DecidableEq, Repr

/-- One external-reviewer cell: on first sight of a name initialise
`(completed, total) = (0, 1)`; otherwise bump `total` only when the score is
not the tentative placeholder; finally bump `completed` on a decimal match. -/
def rwRevCell (row : List String) (d : List (String × RwStats)) (p : Nat × Nat) :
    Except String (List (String × RwStats)) := do
  let nameV ← pyGet row (p.1 : Int)
  let rname := pyStrip nameV
  if rname ≠ "" then do
    let scoreV ← pyGet row (p.2 : Int)
    let score := pyStrip scoreV
    let d1 :=
      if dHas d rname then
        if score ≠ "T" then dUpd d rname (fun g => { g with total := g.total + 1 })
        else d
      else d ++ [(rname, ⟨0, 1⟩)]
    pure (if matchDecimalPrefix score then
      dUpd d1 rname (fun g => { g with comp := g.comp + 1 }) else d1)
  else pure d

/-- One PC cell: as `rwRevCell` but `total` is bumped unconditionally after
the first sight. -/
def rwPcCell (row : List String) (d : List (String × RwStats)) (p : Nat × Nat) :
    Except String (List (String × RwStats)) := do
  let nameV ← pyGet row (p.1 : Int)
  let rname := pyStrip nameV
  if rname ≠ "" then do
    let scoreV ← pyGet row (p.2 : Int)
    let score := pyStrip scoreV
    let d1 :=
      if dHas d rname then dUpd d rname (fun g => { g with total := g.total + 1 })
      else d ++ [(rname, ⟨0, 1⟩)]
    pure (if matchDecimalPrefix score then
      dUpd d1 rname (fun g => { g with comp := g.comp + 1 }) else d1)
  else pure d

/-- State of the fold: the PC dictionary and the external dictionary. -/
structure RwState where
  pc : List (String × RwStats)
  ext : List (String × RwStats)
deriving DecidableEq, Repr

def rwStep (c : RwCols) (s : RwState) (row : List String) : Except String RwState := do
  let dvRaw ← pyGet row c.dec
  if pnwKeep dvRaw then do
    let ext ← c.revCols.foldlM (rwRevCell row) s.ext
    let pc ← c.pcCols.foldlM (rwPcCell row) s.pc
    pure ⟨pc, ext⟩
  else pure s

/-- Model of `papers_needing_review_work.analyze_csv`: the emitted data rows, as
`(name, isPC, counters)` triples — the sorted PC block (flag `true`) followed
by the sorted external block (flag `false`). -/
def rwRun (header : List String) (rows : List (List String)) :
    Except String (List (String × Bool × RwStats)) :=
  let c := rwResolve header
  if c.dec = -1 then Except.error decisionErrMsg
  else do
    let st ← rows.foldlM (rwStep c) ⟨[], []⟩
    pure ((sortByKey st.pc).map (fun p => (p.1, true, p.2)) ++
      (sortByKey st.ext).map (fun p => (p.1, false, p.2)))

/-- The `missing` counter of key `k` (0 before the key is first seen). -/
def missOf (st : List (String × PnwStats)) (k : String) : Int :=
  ((dGet? st k).map PnwStats.miss).getD 0

/-- The `overcommitted` counter of key `k` (0 before the key is first seen). -/
def overOf (st : List (String × PnwStats)) (k : String) : Int :=
  ((dGet? st k).map PnwStats.over).getD 0

/-! ### `analyze_reviewers.py`

Collects names from the `Reviewer 1/2/3` columns and the `E<n>name` columns
of rows whose raw `Decision` value is `RER` or `ERER` (no trimming in this
script), splits comma lists, and prints, sorted by name, the count from the
static columns minus the count from the `E<n>name` columns (Counter
subtraction keeps zero and negative entries). -/

/-- Python `re.match(r'E\d+name', col)` as a Bool. -/
def matchEnamePrefixB (s : String) : Bool := (matchIdxName 'E' s).isSome

def arStatic : List String := ["Reviewer 1", "Reviewer 2", "Reviewer 3"]

def arECols (flds : List String) : List String := flds.filter matchEnamePrefixB

/-- Model of `csv.DictReader` cell access: `none` models both a column that is not a
fieldname and the `None` filled in for a short row. -/
def arCell (flds row : List String) (col : String) : Option String :=
  ((flds.zip row).find? (fun p => p.1 == col)).map (fun p => p.2)

/-- The row filter of `analyze_reviewers`: the raw `Decision` value (Python
`row.get("Decision", "")`) compared, without trimming, against the two codes. -/
def arKeep (flds row : List String) : Bool :=
  match arCell flds row "Decision" with
  | some v => v == "RER" || v == "ERER"
  | none => false

/-- Comma-list splitting as in the script: strip the cell, and if nonempty
split on commas and strip each token; an empty cell yields no tokens. -/
def cellTokens (v : String) : List String :=
  if pyStrip v = "" then [] else (pySplitComma (pyStrip v)).map pyStrip

/-- Model of `row.get(column, "").strip()`: a missing field of a short row is Python
`None`, whose `.strip()` raises; a column that is no fieldname gives `""`. -/
def arGetCell (flds row : List String) (col : String) : Except String String :=
  match arCell flds row col with
  | some v => Except.ok v
  | none =>
    if flds.contains col then
      Except.error "AttributeError: NoneType object has no attribute strip"
    else Except.ok ""

def arCollectRow (flds row : List String) :
    Except String (List String × List String) := do
  let r ← arStatic.foldlM
    (fun acc col => do
      let v ← arGetCell flds row col
      pure (acc ++ cellTokens v)) []
  let e ← (arECols flds).foldlM
    (fun acc col => do
      let v ← arGetCell flds row col
      pure (acc ++ cellTokens v)) []
  pure (r, e)

/-- The collection pass of `analyze_reviewers`: all static-column tokens and
all `E<n>name` tokens of the filtered rows, in input order. -/
def arCollect (flds : List String) (rows : List (List String)) :
    Except String (List String × List String) :=
  rows.foldlM
    (fun acc row =>
      if arKeep flds row then do
        let p ← arCollectRow flds row
        pure (acc.1 ++ p.1, acc.2 ++ p.2)
      else pure acc) ([], [])

/-- One `Counter` increment. -/
def bump (d : List (String × Int)) (k : String) : List (String × Int) :=
  if dHas d k then dUpd d k (fun v => v + 1) else d ++ [(k, 1)]

/-- Python `Counter(l)`. -/
def counter (l : List String) : List (String × Int) := l.foldl bump []

/-- Python `a.subtract(b)` on counters: every key of `a` keeps `a[k] - b[k]`,
and every key of `b` unknown to `a` is appended with `-b[k]` (zero and
negative totals are kept, not deleted). -/
def counterSub (a b : List (String × Int)) : List (String × Int) :=
  a.map (fun p => (p.1, p.2 - dGetD b p.1 0)) ++
    (b.filter (fun p => !(dHas a p.1))).map (fun p => (p.1, 0 - p.2))

def arRequiredOk (flds : List String) : Bool :=
  (arStatic ++ arECols flds).all (fun col => flds.contains col)

/-- Model of `analyze_reviewers`: the emitted `(name, count)` rows, sorted by name. -/
def arRun (flds : List String) (rows : List (List String)) :
    Except String (List (String × Int)) :=
  if arRequiredOk flds then do
    let p ← arCollect flds rows
    pure (sortByKey (counterSub (counter p.1) (counter p.2)))
  else Except.error "Error: required columns are missing"

/-! ### `find_available_declines.py` (the orchestrator's join) -/

/-- The emission test of the join loop body. -/
def joinF (tally : List (String × Int)) (p : String × Int) :
    Option (String × Int × Int) :=
  if 0 < dGetD tally p.1 0 then some (p.1, p.2, dGetD tally p.1 0) else none

/-- The orchestrator's join: count the declined names, and for every counted
name whose reviewer tally is strictly positive emit
`(name, decline count, tally count)`. -/
def joinOut (tally : List (String × Int)) (declines : List String) :
    List (String × Int × Int) :=
  (counter declines).filterMap (joinF tally)

/-! ### `extract_paper_scores.py` -/

/-- Model of `extract_time_zone_data`: a `Name -> Slots available` table, the slots
split on commas and trimmed. -/
def extractTimeZoneData (rows : List (String × String)) :
    List (String × List String) :=
  rows.foldl (fun d p => dSet d p.1 ((pySplitComma p.2).map pyStrip)) []

/-- Python `set(tags) & acc`. -/
def interSet (acc tags : List String) : List String :=
  tags.dedup.filter (fun t => acc.contains t)

/-- The running location intersection of `analyze_csv` (lines 100-106): start
from the first named participant's tags if the name is in the lookup (else
the empty set), then intersect the tags of every later participant present in
the lookup, skipping absent ones. -/
def locStart (first : String) (tz : List (String × List String)) : List String :=
  if dHas tz first then (dGetD tz first []).dedup else []

def locSet (first : String) (rest : List String)
    (tz : List (String × List String)) : List String :=
  rest.foldl (fun acc n => if dHas tz n then interSet acc (dGetD tz n []) else acc)
    (locStart first tz)

/-- The emitted location list: the intersection, sorted. -/
def locations (first : String) (rest : List String)
    (tz : List (String × List String)) : List String :=
  sortStr (locSet first rest tz)

/-- Definition following the spec's words, for comparison (claim C2): the
intersection of the tag-lists of exactly those named participants that are
present in the lookup — every absent participant skipped, whatever its
position — sorted; empty when no participant matched. -/
def specLocations (names : List String) (tz : List (String × List String)) :
    List String :=
  match names.filter (fun n => dHas tz n) with
  | [] => []
  | m :: ms =>
    sortStr (ms.foldl (fun acc n => interSet acc (dGetD tz n []))
      (dGetD tz m []).dedup)

/-- A cell of the extractor's output row: a plain string, the Python-printed
location list, or the discuss flag. -/
inductive Cell where
  | str (v : String)
  | strs (v : List String)
  | flag (v : Bool)
deriving DecidableEq, Repr

def isWordChar (c : Char) : Bool := c.isAlphanum || c = '_'

/-- Python `re.match(r'S\d+score', col)` (or `E`…): anchored prefix match. -/
def matchIdxScore (letter : Char) (s : String) : Bool :=
  match s.data with
  | c :: r =>
    c == letter && !(r.takeWhile Char.isDigit).isEmpty &&
      startsWithChars (r.dropWhile Char.isDigit) ['s', 'c', 'o', 'r', 'e']
  | [] => false

/-- Python `re.match(r'\w\d+Reviewer Recommendation', col)`. -/
def matchRecCol (s : String) : Bool :=
  match s.data with
  | c :: r =>
    isWordChar c && !(r.takeWhile Char.isDigit).isEmpty &&
      startsWithChars (r.dropWhile Char.isDigit) "Reviewer Recommendation".data
  | [] => false

/-- Python `re.match(r'\w[\d]?LIT', col)`: a word character, an optional digit, then
the literal. -/
def matchOptDigitLit (lit : List Char) (s : String) : Bool :=
  match s.data with
  | c :: r =>
    isWordChar c &&
      (startsWithChars r lit ||
        (match r with
         | d :: r2 => d.isDigit && startsWithChars r2 lit
         | [] => false))
  | [] => false

def matchDiscussCol (s : String) : Bool :=
  matchOptDigitLit "Discuss at PC Meeting".data s

def matchNameCol (s : String) : Bool :=
  matchOptDigitLit "name".data s

structure ExtractCols where
  idIdx : Int
  pscore : Int
  dec : Int
  meta : Int
  pcCols : List Nat
  revCols : List Nat
  recCols : List Nat
  discussCols : List Nat
  nameCols : List Nat
deriving DecidableEq, Repr

/-- The header scan of `extract_paper_scores.analyze_csv` (the `elif` chain). -/
def extractResolveAux : ExtractCols → Nat → List String → ExtractCols
  | acc, _, [] => acc
  | acc, i, col :: cols =>
    let acc' :=
      if col = "ID" then { acc with idIdx := (i : Int) }
      else if col = "Pscore" then { acc with pscore := (i : Int) }
      else if col = "Decision" then { acc with dec := (i : Int) }
      else if col = "PReviewer Recommendation" then { acc with meta := (i : Int) }
      else if matchIdxScore 'S' col then { acc with pcCols := acc.pcCols ++ [i] }
      else if matchIdxScore 'E' col then { acc with revCols := acc.revCols ++ [i] }
      else if matchRecCol col then { acc with recCols := acc.recCols ++ [i] }
      else if matchDiscussCol col then
        { acc with discussCols := acc.discussCols ++ [i] }
      else if matchNameCol col then { acc with nameCols := acc.nameCols ++ [i] }
      else acc
    extractResolveAux acc' (i + 1) cols

def extractResolve (header : List String) : ExtractCols :=
  extractResolveAux ⟨-1, -1, -1, -1, [], [], [], [], []⟩ 0 header

def extractAllow : List String :=
  ["RER", "ERER", "A-N", "Minor-N", "Major-N", "R-N", "T"]

/-- The row filter of `extract_paper_scores`: the trimmed decision against
its allow-list. -/
def extractKeep (raw : String) : Bool := extractAllow.contains (pyStrip raw)

/-- The fixed decision-code table (`decision_map`); an unknown code raises
`KeyError`. -/
def decisionMap (s : String) : Option String :=
  if s = "A" then some "6.0"
  else if s = "MnR" then some "5.0"
  else if s = "MnMaR" then some "4.0"
  else if s = "MaR" then some "3.0"
  else if s = "RMa" then some "2.0"
  else if s = "R" then some "1.0"
  else none

def decisionMapGet (s : String) : Except String String :=
  match decisionMap s with
  | some v => Except.ok v
  | none => Except.error "KeyError"

/-- The discuss loop (`break` on the first "Discuss" cell). -/
def findDiscuss (row : List String) : List Nat → Except String Bool
  | [] => Except.ok false
  | i :: rest => do
    let v ← pyGet row (i : Int)
    if v == "Discuss" then pure true else findDiscuss row rest

/-- Gather the raw score cells that match the decimal pattern (these cells
are not stripped in this script). -/
def gatherScores (row : List String) (cols : List Nat) :
    Except String (List String) :=
  cols.foldlM
    (fun acc i => do
      let s ← pyGet row (i : Int)
      pure (if matchDecimalPrefix s then acc ++ [s] else acc)) []

/-- Python `while len(row_array) < n: row_array.append("")`. -/
def padTo (l : List Cell) (n : Nat) : List Cell :=
  l ++ List.replicate (n - l.length) (Cell.str "")

/-- Processing of one data row: `ok none` when the row is filtered out,
`ok (some cells)` for an emitted row, `error` for a raised exception. -/
def extractRow (c : ExtractCols) (tz : List (String × List String))
    (row : List String) : Except String (Option (List Cell)) := do
  let dvRaw ← pyGet row c.dec
  let dv := pyStrip dvRaw
  if extractAllow.contains dv then do
    let dv2 := if dv = "RER" || dv = "T" then "" else dv
    let locs ← match c.nameCols with
      | [] => Except.error "IndexError: list index out of range"
      | n0 :: nrest => do
        let firstName ← pyGet row (n0 : Int)
        let restNames ← nrest.mapM (fun i => pyGet row (i : Int))
        pure (locations firstName restNames tz)
    let discussFlag ← findDiscuss row c.discussCols
    let idV ← pyGet row c.idIdx
    let psV ← pyGet row c.pscore
    let scoresPc ← gatherScores row c.pcCols
    let scoresRev ← gatherScores row c.revCols
    let metaV ← pyGet row c.meta
    let recVals ← c.recCols.mapM (fun i => pyGet row (i : Int))
    let base : List Cell := [Cell.str idV, Cell.strs locs, Cell.flag discussFlag,
      Cell.str dv2, Cell.str psV]
    let padded9 := padTo (base ++ (scoresPc ++ scoresRev).map Cell.str) 9
    let a2 := (padded9 ++ [Cell.str metaV]) ++
      ((recVals.filter (fun v => v ≠ "")).map Cell.str)
    let padded14 := padTo a2 14
    let metaCode ← if metaV ≠ "" then decisionMapGet metaV else pure ""
    let recCodes ← (recVals.filter (fun v => v ≠ "")).mapM decisionMapGet
    pure (some ((padded14 ++ [Cell.str metaCode]) ++ recCodes.map Cell.str))
  else pure none

/-- The fixed output header row of the extractor. -/
def extractHeaderRow : List Cell :=
  ["ID", "Locations", "Discuss", "Decision", "Pscore", "", "", "", "",
    "Precommendation"].map Cell.str

/-- What the extractor wrote to standard output: the rows emitted so far and,
when a row raised, the exception (rows already printed stay printed). -/
structure ExtractOut where
  rows : List (List Cell)
  err : Option String
deriving DecidableEq, Repr

def extractRowsLoop (c : ExtractCols) (tz : List (String × List String)) :
    List (List String) → List (List Cell) → ExtractOut
  | [], acc => ⟨acc, none⟩
  | row :: rest, acc =>
    match extractRow c tz row with
    | Except.ok none => extractRowsLoop c tz rest acc
    | Except.ok (some r) => extractRowsLoop c tz rest (acc ++ [r])
    | Except.error e => ⟨acc, some e⟩

def idErrMsg : String := "Error: The CSV file must contain an 'ID' column."

def pscoreErrMsg : String := "Error: The CSV file must contain an 'Pscore' column."

def metaErrMsg : String :=
  "Error: The CSV file must contain a meta reviewer recommendation column."

/-- Model of `extract_paper_scores.analyze_csv`: mandatory-column checks (which abort
before anything is printed), then the output header row, then one emitted row
per retained data row. -/
def extractRun (header : List String) (rows : List (List String))
    (tz : List (String × List String)) : ExtractOut :=
  let c := extractResolve header
  if c.idIdx = -1 then ⟨[], some idErrMsg⟩
  else if c.pscore = -1 then ⟨[], some pscoreErrMsg⟩
  else if c.dec = -1 then ⟨[], some decisionErrMsg⟩
  else if c.meta = -1 then ⟨[], some metaErrMsg⟩
  else extractRowsLoop c tz rows [extractHeaderRow]

/-! ## Theorems -/

theorem dGet?_nil {α : Type} (k : String) : dGet? ([] : List (String × α)) k = none := rfl

theorem dGet?_cons {α : Type} (p : String × α) (d : List (String × α)) (k : String) :
    dGet? (p :: d) k = if p.1 = k then some p.2 else dGet? d k := by
  by_cases h : p.1 = k
  · rw [dGet?, List.find?_cons_of_pos _ (by simpa using h), if_pos h]
    rfl
  · rw [dGet?, List.find?_cons_of_neg _ (by simpa using h), if_neg h]
    rfl

theorem dUpd_cons {α : Type} (p : String × α) (d : List (String × α)) (k : String)
    (f : α → α) :
    dUpd (p :: d) k f = (if p.1 = k then (p.1, f p.2) else p) :: dUpd d k f := rfl

theorem dGet?_dUpd_self {α : Type} (d : List (String × α)) (k : String) (f : α → α) :
    dGet? (dUpd d k f) k = (dGet? d k).map f := by
  induction d with
  | nil => rfl
  | cons p d ih =>
    rw [dUpd_cons, dGet?_cons, dGet?_cons]
    by_cases h : p.1 = k
    · simp [h]
    · rw [if_neg h, if_neg h, if_neg h]
      exact ih

theorem dGet?_dUpd_ne {α : Type} (d : List (String × α)) (k k' : String) (f : α → α)
    (h : k' ≠ k) : dGet? (dUpd d k f) k' = dGet? d k' := by
  induction d with
  | nil => rfl
  | cons p d ih =>
    rw [dUpd_cons, dGet?_cons, dGet?_cons]
    by_cases hp : p.1 = k
    · have hne : p.1 ≠ k' := fun he => h (he ▸ hp ▸ rfl)
      have hkk : k ≠ k' := fun he => h he.symm
      simp [hp, hne, ih, hkk]
    · rw [if_neg hp]
      by_cases hq : p.1 = k'
      · rw [if_pos hq, if_pos hq]
      · rw [if_neg hq, if_neg hq]
        exact ih

theorem dGet?_append {α : Type} (d e : List (String × α)) (k : String) :
    dGet? (d ++ e) k = match dGet? d k with
      | some v => some v
      | none => dGet? e k := by
  induction d with
  | nil => simp [dGet?_nil]
  | cons p d ih =>
    rw [List.cons_append, dGet?_cons, dGet?_cons]
    by_cases h : p.1 = k
    · rw [if_pos h, if_pos h]
    · rw [if_neg h, if_neg h]
      exact ih

theorem dGet?_append_single_self {α : Type} (d : List (String × α)) (k : String) (v : α)
    (h : dGet? d k = none) : dGet? (d ++ [(k, v)]) k = some v := by
  rw [dGet?_append, h]
  simp [dGet?_cons]

theorem dGet?_append_single_ne {α : Type} (d : List (String × α)) (k k' : String) (v : α)
    (h : k' ≠ k) : dGet? (d ++ [(k, v)]) k' = dGet? d k' := by
  rw [dGet?_append]
  cases hd : dGet? d k' with
  | some w => rfl
  | none =>
    rw [dGet?_cons, if_neg (fun he => h he.symm), dGet?_nil]

theorem dKeys_dUpd {α : Type} (d : List (String × α)) (k : String) (f : α → α) :
    dKeys (dUpd d k f) = dKeys d := by
  induction d with
  | nil => rfl
  | cons p d ih =>
    rw [dUpd_cons]
    by_cases h : p.1 = k
    · simp only [dKeys, List.map_cons, if_pos h]
      rw [show ((p.1, f p.2) : String × α).1 = p.1 from rfl]
      exact congrArg (p.1 :: ·) (congrArg (List.map Prod.fst) rfl) ▸ congrArg (p.1 :: ·) ih
    · simp only [dKeys, List.map_cons, if_neg h]
      exact congrArg (p.1 :: ·) ih

theorem dKeys_append {α : Type} (d e : List (String × α)) :
    dKeys (d ++ e) = dKeys d ++ dKeys e := by
  simp [dKeys]

theorem dGet?_eq_none_of_not_mem_keys {α : Type} (d : List (String × α)) (k : String)
    (h : k ∉ dKeys d) : dGet? d k = none := by
  induction d with
  | nil => rfl
  | cons p d ih =>
    simp only [dKeys, List.map_cons, List.mem_cons] at h
    push_neg at h
    rw [dGet?_cons, if_neg (fun he => h.1 he.symm)]
    exact ih h.2

theorem mem_keys_of_dGet?_isSome {α : Type} (d : List (String × α)) (k : String)
    (h : (dGet? d k).isSome = true) : k ∈ dKeys d := by
  by_contra hk
  rw [dGet?_eq_none_of_not_mem_keys d k hk] at h
  exact Bool.noConfusion h

/-- On a dictionary with distinct keys, membership of a pair is the same as lookup. -/
theorem mem_iff_dGet? {α : Type} (d : List (String × α)) (k : String) (v : α)
    (hnd : (dKeys d).Nodup) : (k, v) ∈ d ↔ dGet? d k = some v := by
  induction d with
  | nil => simp [dGet?_nil]
  | cons p d ih =>
    simp only [dKeys, List.map_cons, List.nodup_cons] at hnd
    rw [List.mem_cons, dGet?_cons]
    by_cases h : p.1 = k
    · rw [if_pos h]
      constructor
      · rintro (he | hm)
        · rw [← he]
        · exfalso
          have : k ∈ List.map Prod.fst d := by
            refine List.mem_map.mpr ⟨(k, v), hm, rfl⟩
          exact hnd.1 (h ▸ this)
      · intro he
        left
        obtain ⟨p1, p2⟩ := p
        simp only at h he
        injection he with he2
        rw [h, he2]
    · rw [if_neg h]
      constructor
      · rintro (he | hm)
        · exfalso
          exact h (congrArg Prod.fst he).symm
        · exact (ih hnd.2).mp hm
      · intro hm
        exact Or.inr ((ih hnd.2).mpr hm)

theorem lexLt_iff_lex : ∀ x y : List Char,
    lexLt x y = true ↔ List.Lex (· < ·) x y := by
  intro x
  induction x with
  | nil =>
    intro y
    cases y with
    | nil =>
      simp only [lexLt]
      exact ⟨fun h => Bool.noConfusion h, fun h => by cases h⟩
    | cons b bs => simp only [lexLt]; exact ⟨fun _ => List.Lex.nil, fun _ => trivial⟩
  | cons a as ih =>
    intro y
    cases y with
    | nil =>
      simp only [lexLt]
      exact ⟨fun h => Bool.noConfusion h, fun h => by cases h⟩
    | cons b bs =>
      simp only [lexLt, Bool.or_eq_true, Bool.and_eq_true, decide_eq_true_eq, beq_iff_eq]
      constructor
      · rintro (h | ⟨rfl, h⟩)
        · exact List.Lex.rel h
        · exact List.Lex.cons ((ih bs).mp h)
      · intro h
        cases h with
        | rel h => exact Or.inl h
        | cons h => exact Or.inr ⟨rfl, (ih bs).mpr h⟩

theorem string_data_inj {a b : String} (h : a.data = b.data) : a = b :=
  congrArg String.mk h

/-- Comparison `lexLt` on the character data is exactly Mathlib's `<` on strings. -/
theorem lexLt_iff_string_lt (a b : String) : lexLt a.data b.data = true ↔ a < b := by
  rw [String.lt_iff_toList_lt]
  exact lexLt_iff_lex a.data b.data

theorem sortByKey_perm {α : Type} (d : List (String × α)) :
    List.Perm (sortByKey d) d :=
  List.perm_insertionSort keyLe d

theorem mem_sortByKey {α : Type} (d : List (String × α)) (p : String × α) :
    p ∈ sortByKey d ↔ p ∈ d :=
  (sortByKey_perm d).mem_iff

/-- Items of a distinct-key dictionary sorted by key are strictly increasing
in the string order. -/
theorem sortByKey_strict {α : Type} (d : List (String × α))
    (hnd : (dKeys d).Nodup) :
    List.Pairwise (fun a b : String × α => a.1 < b.1) (sortByKey d) := by
  have hs : List.Sorted keyLe (sortByKey d) := List.sorted_insertionSort keyLe d
  have hperm : List.Perm (dKeys (sortByKey d)) (dKeys d) := (sortByKey_perm d).map Prod.fst
  have hnd' : (dKeys (sortByKey d)).Nodup := hperm.nodup_iff.mpr hnd
  have hpw : List.Pairwise (fun a b : String × α => a.1 ≠ b.1) (sortByKey d) :=
    (List.pairwise_map).mp hnd'
  refine (hs.and hpw).imp (fun h => ?_)
  obtain ⟨hle, hne⟩ := h
  rw [← lexLt_iff_string_lt]
  by_contra h3
  rw [Bool.not_eq_true] at h3
  exact hne (string_data_inj (lexLt_antisymm _ _ h3 hle))

theorem mem_sortStr (l : List String) (s : String) : s ∈ sortStr l ↔ s ∈ l :=
  (List.perm_insertionSort _ l).mem_iff

theorem sortStr_strict (l : List String) (hnd : l.Nodup) :
    List.Pairwise (fun a b : String => a < b) (sortStr l) := by
  have hs : List.Sorted strLe (sortStr l) := List.sorted_insertionSort strLe l
  have hnd' : (sortStr l).Nodup := (List.perm_insertionSort _ l).nodup_iff.mpr hnd
  refine (hs.and hnd').imp (fun h => ?_)
  obtain ⟨hle, hne⟩ := h
  rw [← lexLt_iff_string_lt]
  by_contra h3
  rw [Bool.not_eq_true] at h3
  exact hne (string_data_inj (lexLt_antisymm _ _ h3 hle))

theorem takeWhile_digits_append (d1 t : List Char)
    (h : ∀ ch ∈ d1, ch.isDigit = true) :
    (d1 ++ '.' :: t).takeWhile Char.isDigit = d1 := by
  induction d1 with
  | nil => simp [List.takeWhile]
  | cons c d ih =>
    have hc : c.isDigit = true := h c (List.mem_cons_self c d)
    simp only [List.cons_append, List.takeWhile_cons, hc, if_true]
    rw [ih (fun ch hch => h ch (List.mem_cons_of_mem c hch))]

theorem dropWhile_digits_append (d1 t : List Char)
    (h : ∀ ch ∈ d1, ch.isDigit = true) :
    (d1 ++ '.' :: t).dropWhile Char.isDigit = '.' :: t := by
  induction d1 with
  | nil => simp [List.dropWhile]
  | cons c d ih =>
    have hc : c.isDigit = true := h c (List.mem_cons_self c d)
    simp only [List.cons_append, List.dropWhile_cons, hc, if_true]
    exact ih (fun ch hch => h ch (List.mem_cons_of_mem c hch))

theorem mem_takeWhile_digit (l : List Char) (c : Char)
    (h : c ∈ l.takeWhile Char.isDigit) : c.isDigit = true := by
  induction l with
  | nil => simp [List.takeWhile] at h
  | cons a l ih =>
    rw [List.takeWhile_cons] at h
    by_cases ha : a.isDigit
    · rw [if_pos ha] at h
      rcases List.mem_cons.mp h with h | h
      · rw [h]; exact ha
      · exact ih h
    · rw [if_neg ha] at h; simp at h

theorem dotDigitHead_eq_true (l : List Char) (h : dotDigitHead l = true) :
    ∃ c t, l = '.' :: c :: t ∧ c.isDigit = true := by
  unfold dotDigitHead at h
  split at h
  · next c t => exact ⟨c, t, rfl, h⟩
  · exact absurd h (by simp)

/-- The classification actually used by the scripts, characterised: it is the
prefix pattern, not the full-string pattern. -/
theorem matchDecimalPrefix_iff (s : String) :
    matchDecimalPrefix s = true ↔ DecPrefixSpec s := by
  constructor
  · intro h
    unfold matchDecimalPrefix at h
    rw [Bool.and_eq_true] at h
    obtain ⟨h1, h2⟩ := h
    obtain ⟨c, t, hdrop, hc⟩ := dotDigitHead_eq_true _ h2
    refine ⟨s.data.takeWhile Char.isDigit, c, t, ?_, ?_, ?_, hc⟩
    · conv_lhs => rw [← List.takeWhile_append_dropWhile (p := Char.isDigit) (l := s.data)]
      rw [hdrop]
    · intro hnil; rw [hnil] at h1; simp at h1
    · intro ch hch; exact mem_takeWhile_digit s.data ch hch
  · rintro ⟨d1, c, rest, hdata, hne, hdig, hc⟩
    unfold matchDecimalPrefix
    rw [hdata, Bool.and_eq_true]
    constructor
    · rw [takeWhile_digits_append d1 (c :: rest) hdig]
      cases d1 with
      | nil => exact absurd rfl hne
      | cons _ _ => simp
    · rw [dropWhile_digits_append d1 (c :: rest) hdig]
      simp [dotDigitHead, hc]

/-! ### Reduction lemmas for `Except` and `foldlM` -/

theorem except_bind_ok {α β : Type} (a : α) (f : α → Except String β) :
    (Except.ok a : Except String α) >>= f = f a := rfl

theorem except_pure {α : Type} (a : α) :
    (pure a : Except String α) = Except.ok a := rfl

theorem except_bind_error {α β : Type} (e : String) (f : α → Except String β) :
    (Except.error e : Except String α) >>= f = Except.error e := rfl

theorem except_map_ok {α β : Type} (a : α) (f : α → β) :
    Except.map f (Except.ok a : Except String α) = Except.ok (f a) := rfl

theorem foldlM_except_nil {σ β : Type} (f : σ → β → Except String σ) (s : σ) :
    ([] : List β).foldlM f s = Except.ok s := rfl

theorem foldlM_except_cons {σ β : Type} (f : σ → β → Except String σ) (s : σ)
    (b : β) (l : List β) :
    (b :: l).foldlM f s = (f s b) >>= (fun s' => l.foldlM f s') := by
  simp [List.foldlM]

theorem foldlM_except_cons_ok {σ β : Type} (f : σ → β → Except String σ) (s : σ)
    (b : β) (l : List β) (out : σ) :
    ((b :: l).foldlM f s = Except.ok out) ↔
      ∃ s', f s b = Except.ok s' ∧ l.foldlM f s' = Except.ok out := by
  rw [foldlM_except_cons]
  cases h : f s b with
  | ok s1 =>
    rw [except_bind_ok]
    constructor
    · intro h2; exact ⟨s1, rfl, h2⟩
    · rintro ⟨s', hs', h2⟩
      injection hs' with he
      rw [← he] at h2
      exact h2
  | error e =>
    rw [except_bind_error]
    constructor
    · intro h2; exact Except.noConfusion h2
    · rintro ⟨s', hs', _⟩
      exact Except.noConfusion hs'

/-! ### Further dictionary lemmas -/

theorem dGet?_isSome_of_mem_keys {α : Type} (d : List (String × α)) (k : String)
    (h : k ∈ dKeys d) : (dGet? d k).isSome = true := by
  induction d with
  | nil => simp [dKeys] at h
  | cons p d ih =>
    rw [dGet?_cons]
    by_cases hp : p.1 = k
    · rw [if_pos hp]; rfl
    · rw [if_neg hp]
      rcases List.mem_cons.mp h with he | hm
      · exact absurd he.symm hp
      · exact ih hm

theorem not_mem_keys_of_dHas_false {α : Type} (d : List (String × α)) (k : String)
    (h : dHas d k = false) : k ∉ dKeys d := by
  intro hm
  rw [dHas, dGet?_isSome_of_mem_keys d k hm] at h
  exact Bool.noConfusion h

theorem dHas_false_dGet?_none {α : Type} (d : List (String × α)) (k : String)
    (h : dHas d k = false) : dGet? d k = none := by
  unfold dHas at h
  cases hd : dGet? d k with
  | none => rfl
  | some v => rw [hd] at h; exact Bool.noConfusion h

theorem dGet?_none_dHas_false {α : Type} (d : List (String × α)) (k : String)
    (h : dGet? d k = none) : dHas d k = false := by
  unfold dHas; rw [h]; rfl

/-! ### Characterisation of one `papers_needing_work` row step -/

theorem pnwStep_dropped (c : PnwCols) (st : List (String × PnwStats))
    (row : List String) (st' : List (String × PnwStats))
    (h : pnwStep c st row = Except.ok st')
    (hk : retainedKeyOf c row = none) : st' = st := by
  unfold pnwStep at h
  unfold retainedKeyOf at hk
  cases hdec : pyGet row c.dec with
  | error e =>
    rw [hdec] at h
    simp only [except_bind_error] at h
    exact Except.noConfusion h
  | ok dv =>
    rw [hdec] at h
    simp only [hdec] at hk
    simp only [except_bind_ok] at h
    by_cases hkeep : pnwKeep dv
    · rw [if_pos hkeep] at h
      rw [if_pos hkeep] at hk
      cases hs1 : pyGet row c.s1 with
      | ok k0 =>
        rw [hs1] at hk
        exact Option.noConfusion hk
      | error e =>
        rw [hs1] at h
        simp only [except_bind_error] at h
        exact Except.noConfusion h
    · rw [if_neg hkeep] at h
      rw [except_pure] at h
      injection h with he
      exact he.symm

theorem pnwStep_retained (c : PnwCols) (st : List (String × PnwStats))
    (row : List String) (st' : List (String × PnwStats)) (k : String)
    (h : pnwStep c st row = Except.ok st')
    (hk : retainedKeyOf c row = some k) :
    ∃ cnt pcc st1,
      countRev c.revCols row = Except.ok cnt ∧
      countPc c.pcCols row = Except.ok pcc ∧
      ((dHas st k = true ∧ st1 = st) ∨
       (dHas st k = false ∧ ∃ subv, pyGet row c.sub = Except.ok subv ∧
          st1 = st ++ [(k, pnwInit subv)])) ∧
      st' = dUpd st1 k (pnwApply cnt.1 cnt.2.1 cnt.2.2 pcc) := by
  unfold pnwStep at h
  unfold retainedKeyOf at hk
  cases hdec : pyGet row c.dec with
  | error e =>
    rw [hdec] at h
    simp only [except_bind_error] at h
    exact Except.noConfusion h
  | ok dv =>
    rw [hdec] at h
    simp only [hdec] at hk
    simp only [except_bind_ok] at h
    by_cases hkeep : pnwKeep dv
    · rw [if_pos hkeep] at h
      rw [if_pos hkeep] at hk
      cases hs1 : pyGet row c.s1 with
      | error e =>
        rw [hs1] at h
        simp only [except_bind_error] at h
        exact Except.noConfusion h
      | ok k0 =>
        rw [hs1] at h
        rw [hs1] at hk
        have hk0 : k0 = k := by simpa [Except.toOption] using hk
        rw [hk0] at h
        simp only [except_bind_ok] at h
        by_cases hhas : dHas st k
        · rw [if_pos hhas] at h
          simp only [except_pure, except_bind_ok] at h
          cases hcnt : countRev c.revCols row with
          | error e =>
            rw [hcnt] at h
            simp only [except_bind_error] at h
            exact Except.noConfusion h
          | ok cnt =>
            rw [hcnt] at h
            simp only [except_bind_ok] at h
            cases hpcc : countPc c.pcCols row with
            | error e =>
              rw [hpcc] at h
              simp only [except_bind_error] at h
              exact Except.noConfusion h
            | ok pcc =>
              rw [hpcc] at h
              simp only [except_bind_ok, except_pure] at h
              injection h with he
              exact ⟨cnt, pcc, st, rfl, rfl, Or.inl ⟨hhas, rfl⟩, he.symm⟩
        · rw [if_neg hhas] at h
          cases hsub : pyGet row c.sub with
          | error e =>
            rw [hsub] at h
            simp only [except_bind_error] at h
            exact Except.noConfusion h
          | ok subv =>
            rw [hsub] at h
            simp only [except_bind_ok, except_pure] at h
            cases hcnt : countRev c.revCols row with
            | error e =>
              rw [hcnt] at h
              simp only [except_bind_error] at h
              exact Except.noConfusion h
            | ok cnt =>
              rw [hcnt] at h
              simp only [except_bind_ok] at h
              cases hpcc : countPc c.pcCols row with
              | error e =>
                rw [hpcc] at h
                simp only [except_bind_error] at h
                exact Except.noConfusion h
              | ok pcc =>
                rw [hpcc] at h
                simp only [except_bind_ok, except_pure] at h
                injection h with he
                refine ⟨cnt, pcc, st ++ [(k, pnwInit subv)], rfl, rfl,
                  Or.inr ⟨Bool.of_not_eq_true hhas, subv, rfl, rfl⟩, he.symm⟩
    · rw [if_neg hkeep] at hk
      exact Option.noConfusion hk

/-- Per-key lookup behaviour of one row step. -/
theorem pnwStep_lookup (c : PnwCols) (st : List (String × PnwStats))
    (row : List String) (st' : List (String × PnwStats))
    (h : pnwStep c st row = Except.ok st') (k : String) :
    (retainedKeyOf c row ≠ some k ∧ dGet? st' k = dGet? st k) ∨
    (∃ cnt pcc, retainedKeyOf c row = some k ∧
      countRev c.revCols row = Except.ok cnt ∧
      countPc c.pcCols row = Except.ok pcc ∧
      ((∃ g, dGet? st k = some g ∧
         dGet? st' k = some (pnwApply cnt.1 cnt.2.1 cnt.2.2 pcc g)) ∨
       (dGet? st k = none ∧ ∃ subv, pyGet row c.sub = Except.ok subv ∧
         dGet? st' k = some (pnwApply cnt.1 cnt.2.1 cnt.2.2 pcc (pnwInit subv))))) := by
  cases hret : retainedKeyOf c row with
  | none =>
    left
    refine ⟨fun hc => Option.noConfusion hc, ?_⟩
    rw [pnwStep_dropped c st row st' h hret]
  | some k' =>
    by_cases hkk : k' = k
    · subst hkk
      obtain ⟨cnt, pcc, st1, hcnt, hpcc, hst1, hst'⟩ :=
        pnwStep_retained c st row st' k' h hret
      right
      refine ⟨cnt, pcc, rfl, hcnt, hpcc, ?_⟩
      rcases hst1 with ⟨hhas, rfl⟩ | ⟨hhas, subv, hsub, rfl⟩
      · obtain ⟨g, hg⟩ := Option.isSome_iff_exists.mp hhas
        refine Or.inl ⟨g, hg, ?_⟩
        rw [hst', dGet?_dUpd_self, hg]
        rfl
      · have hnone : dGet? st k' = none := dHas_false_dGet?_none st k' hhas
        refine Or.inr ⟨hnone, subv, hsub, ?_⟩
        rw [hst', dGet?_dUpd_self, dGet?_append_single_self st k' (pnwInit subv) hnone]
        rfl
    · left
      constructor
      · intro hc
        injection hc with hc2
        exact hkk hc2
      · obtain ⟨cnt, pcc, st1, hcnt, hpcc, hst1, hst'⟩ :=
          pnwStep_retained c st row st' k' h hret
        have hne : k ≠ k' := fun he => hkk he.symm
        rw [hst', dGet?_dUpd_ne st1 k' k _ hne]
        rcases hst1 with ⟨_, rfl⟩ | ⟨_, subv, _, rfl⟩
        · rfl
        · exact dGet?_append_single_ne st k' k (pnwInit subv) hne

/-- After a successful step the keys of the state stay distinct. -/
theorem pnwStep_nodup (c : PnwCols) (st : List (String × PnwStats))
    (row : List String) (st' : List (String × PnwStats))
    (h : pnwStep c st row = Except.ok st')
    (hnd : (dKeys st).Nodup) : (dKeys st').Nodup := by
  cases hret : retainedKeyOf c row with
  | none => rw [pnwStep_dropped c st row st' h hret]; exact hnd
  | some k =>
    obtain ⟨cnt, pcc, st1, _, _, hst1, hst'⟩ := pnwStep_retained c st row st' k h hret
    have hnd1 : (dKeys st1).Nodup := by
      rcases hst1 with ⟨_, rfl⟩ | ⟨hhas, subv, _, rfl⟩
      · exact hnd
      · rw [dKeys_append]
        rw [List.nodup_append]
        refine ⟨hnd, List.nodup_singleton k, ?_⟩
        intro a ha hb
        simp only [dKeys, List.map_cons, List.map_nil, List.mem_singleton] at hb
        rw [hb] at ha
        exact not_mem_keys_of_dHas_false st k hhas ha
    rw [hst', dKeys_dUpd]
    exact hnd1

theorem pnwFold_nodup (c : PnwCols) :
    ∀ (rows : List (List String)) (st0 st : List (String × PnwStats)),
      rows.foldlM (pnwStep c) st0 = Except.ok st →
      (dKeys st0).Nodup → (dKeys st).Nodup := by
  intro rows
  induction rows with
  | nil =>
    intro st0 st h hnd
    rw [foldlM_except_nil] at h
    injection h with he
    rw [← he]
    exact hnd
  | cons row rest ih =>
    intro st0 st h hnd
    obtain ⟨st1, h1, h2⟩ := (foldlM_except_cons_ok _ _ _ _ _).mp h
    exact ih st1 st h2 (pnwStep_nodup c st0 row st1 h1 hnd)

theorem over_increment_eq_max (conf : Int) :
    (if conf < 2 then 0 else if 2 < conf then conf - 2 else 0) = max 0 (conf - 2) := by
  rw [max_def]
  split_ifs <;> omega

/-- One step preserves nonnegativity of the clamped counters. -/
theorem pnwStep_nonneg (c : PnwCols) (st : List (String × PnwStats))
    (row : List String) (st' : List (String × PnwStats))
    (h : pnwStep c st row = Except.ok st')
    (hpos : ∀ k g, dGet? st k = some g → 0 ≤ g.miss ∧ 0 ≤ g.over) :
    ∀ k g, dGet? st' k = some g → 0 ≤ g.miss ∧ 0 ≤ g.over := by
  intro k g hg
  rcases pnwStep_lookup c st row st' h k with ⟨_, heq⟩ | ⟨cnt, pcc, _, _, _, hcase⟩
  · rw [heq] at hg
    exact hpos k g hg
  · rcases hcase with ⟨g0, hg0, hg'⟩ | ⟨_, subv, _, hg'⟩
    · rw [hg'] at hg
      injection hg with he
      obtain ⟨hm, ho⟩ := hpos k g0 hg0
      rw [← he]
      constructor
      · exact add_nonneg hm (le_max_left 0 _)
      · unfold pnwApply
        simp only
        rw [over_increment_eq_max]
        exact add_nonneg ho (le_max_left 0 _)
    · rw [hg'] at hg
      injection hg with he
      rw [← he]
      constructor
      · exact add_nonneg le_rfl (le_max_left 0 _)
      · unfold pnwApply
        simp only
        rw [over_increment_eq_max]
        exact add_nonneg le_rfl (le_max_left 0 _)

theorem pnwFold_nonneg (c : PnwCols) :
    ∀ (rows : List (List String)) (st0 st : List (String × PnwStats)),
      rows.foldlM (pnwStep c) st0 = Except.ok st →
      (∀ k g, dGet? st0 k = some g → 0 ≤ g.miss ∧ 0 ≤ g.over) →
      (∀ k g, dGet? st k = some g → 0 ≤ g.miss ∧ 0 ≤ g.over) := by
  intro rows
  induction rows with
  | nil =>
    intro st0 st h hpos
    rw [foldlM_except_nil] at h
    injection h with he
    rw [← he]
    exact hpos
  | cons row rest ih =>
    intro st0 st h hpos
    obtain ⟨st1, h1, h2⟩ := (foldlM_except_cons_ok _ _ _ _ _).mp h
    exact ih st1 st h2 (pnwStep_nonneg c st0 row st1 h1 hpos)

/-- Claim C1: for every retained row processed by `papers_needing_work`, the
`missing` counter of the row's group key grows by exactly
`max 0 (2 - (confirmed + tentative))` and the `overcommitted` counter by
exactly `max 0 (confirmed - 2)`, where `confirmed` and `tentative` are the
row's reviewer counts; consequently both counters are nonnegative for every
key at every point of the pass. -/
theorem claim1_missing_overcommitted :
    (∀ (c : PnwCols) (st : List (String × PnwStats)) (row : List String)
       (st' : List (String × PnwStats)) (k : String) (conf tent comp : Int),
      pnwStep c st row = Except.ok st' →
      retainedKeyOf c row = some k →
      countRev c.revCols row = Except.ok (conf, tent, comp) →
      missOf st' k = missOf st k + max 0 (2 - (conf + tent)) ∧
      overOf st' k = overOf st k + max 0 (conf - 2)) ∧
    (∀ (c : PnwCols) (rows : List (List String)) (st : List (String × PnwStats)),
      rows.foldlM (pnwStep c) [] = Except.ok st →
      ∀ (k : String) (g : PnwStats), dGet? st k = some g →
        0 ≤ g.miss ∧ 0 ≤ g.over) := by
  constructor
  · intro c st row st' k conf tent comp h hret hcnt
    rcases pnwStep_lookup c st row st' h k with ⟨hne, _⟩ | ⟨cnt, pcc, _, hcnt', _, hcase⟩
    · exact absurd hret hne
    · rw [hcnt] at hcnt'
      injection hcnt' with he
      subst he
      rcases hcase with ⟨g0, hg0, hg'⟩ | ⟨hnone, subv, _, hg'⟩
      · constructor
        · unfold missOf
          rw [hg0, hg']
          rfl
        · unfold overOf
          rw [hg0, hg']
          show (pnwApply conf tent comp pcc g0).over = g0.over + max 0 (conf - 2)
          unfold pnwApply
          simp only
          rw [over_increment_eq_max]
      · constructor
        · unfold missOf
          rw [hnone, hg']
          rfl
        · unfold overOf
          rw [hnone, hg']
          show (pnwApply conf tent comp pcc (pnwInit subv)).over =
            (Option.map PnwStats.over (none : Option PnwStats)).getD 0 + max 0 (conf - 2)
          unfold pnwApply pnwInit
          simp only
          rw [over_increment_eq_max]
          rfl
  · intro c rows st h
    exact pnwFold_nonneg c rows [] st h (fun k g hg => Option.noConfusion hg)

/-- Claim C1 witness: a concrete retained row with one confirmed reviewer. -/
theorem claim1_witness :
    (missOf [("PaperA", ⟨"3.50", 1, 1, 0, 1, 1, 0, 1, 0⟩)] "PaperA" =
       missOf [] "PaperA" + max 0 (2 - (1 + 0)) ∧
     overOf [("PaperA", ⟨"3.50", 1, 1, 0, 1, 1, 0, 1, 0⟩)] "PaperA" =
       overOf [] "PaperA" + max 0 ((1 : Int) - 2)) ∧
    (0 ≤ (⟨"3.50", 1, 1, 0, 1, 1, 0, 1, 0⟩ : PnwStats).miss ∧
     0 ≤ (⟨"3.50", 1, 1, 0, 1, 1, 0, 1, 0⟩ : PnwStats).over) :=
  ⟨claim1_missing_overcommitted.1 (pnwResolve ["Pname", "Decision", "E1name", "E1score"])
      [] ["PaperA", "RER", "Bob", "3.50"]
      [("PaperA", ⟨"3.50", 1, 1, 0, 1, 1, 0, 1, 0⟩)] "PaperA" 1 0 1
      (by decide) (by decide) (by decide),
   claim1_missing_overcommitted.2 (pnwResolve ["Pname", "Decision", "E1name", "E1score"])
      [["PaperA", "RER", "Bob", "3.50"]]
      [("PaperA", ⟨"3.50", 1, 1, 0, 1, 1, 0, 1, 0⟩)]
      (by decide) "PaperA" ⟨"3.50", 1, 1, 0, 1, 1, 0, 1, 0⟩ (by decide)⟩

/-- Claim C3 counterexample: the trimmed cell "1.5x" is classified as
completed by the scripts' pattern although it is not exactly a decimal
number (digits, point, digits, nothing else), refuting the claimed
equivalence with the strict full-string pattern. -/
theorem claim3_counterexample :
    matchDecimalPrefix (pyStrip "1.5x") = true ∧
    strictDecimalSpec (pyStrip "1.5x") = false := by
  constructor
  · decide
  · decide

/-- Claim C3 (amended): a score cell is classified as completed iff its
trimmed content BEGINS with one or more digits, a literal decimal point and a
digit; trailing characters are allowed, because `re.match` anchors only at
the start (blank cells, the tentative placeholder and alphabetic text are
still rejected). -/
theorem claim3_decimal_classification (cell : String) :
    matchDecimalPrefix (pyStrip cell) = true ↔ DecPrefixSpec (pyStrip cell) :=
  matchDecimalPrefix_iff (pyStrip cell)

/-- Claim C5 counterexample: on the scenario input, `missing` for PaperA is
2 (each of the two retained rows contributes `max 0 (2 - 1) = 1`), not the
claimed 0. -/
theorem claim5_counterexample :
    Except.map (List.map (fun p : String × PnwStats => (p.1, p.2.miss)))
      (pnwRun ["Pname", "Decision", "E1name", "E1score"]
        [["PaperA", "RER", "Alice", "T"], ["PaperA", "RER", "Bob", "3.50"]]) =
      Except.ok [("PaperA", 2)] ∧ ¬ ((2 : Int) = 0) := by
  constructor
  · decide
  · decide

/-- Claim C5 (amended): on the input with header `Pname,Decision,E1name,E1score`
and rows `PaperA,RER,Alice,T` and `PaperA,RER,Bob,3.50`, the aggregator
reports for PaperA: confirmed (assigned) = 1, tentative = 1, completed = 1 and
missing = 2 (the per-row deficit `max 0 (2 - (confirmed + tentative))` is 1 on
each of the two rows, since each row carries a single reviewer slot). -/
theorem claim5_scenario :
    Except.map (List.map (fun p : String × PnwStats =>
        (p.1, p.2.assigned, p.2.tent, p.2.miss, p.2.comp)))
      (pnwRun ["Pname", "Decision", "E1name", "E1score"]
        [["PaperA", "RER", "Alice", "T"], ["PaperA", "RER", "Bob", "3.50"]]) =
      Except.ok [("PaperA", 1, 1, 2, 1)] := by
  decide

/-! ### Output ordering (claim C4) -/

theorem nodup_keys_dUpd {α : Type} (d : List (String × α)) (k : String) (f : α → α)
    (h : (dKeys d).Nodup) : (dKeys (dUpd d k f)).Nodup := by
  rw [dKeys_dUpd]; exact h

theorem nodup_keys_append_fresh {α : Type} (d : List (String × α)) (k : String) (v : α)
    (h : (dKeys d).Nodup) (hk : dHas d k = false) :
    (dKeys (d ++ [(k, v)])).Nodup := by
  rw [dKeys_append, List.nodup_append]
  refine ⟨h, List.nodup_singleton k, ?_⟩
  intro a ha hb
  simp only [dKeys, List.map_cons, List.map_nil, List.mem_singleton] at hb
  rw [hb] at ha
  exact not_mem_keys_of_dHas_false d k hk ha

/-- A property preserved by each monadic step is preserved by the fold. -/
theorem foldlM_except_preserve {σ β : Type} (f : σ → β → Except String σ)
    (P : σ → Prop) (hf : ∀ s b s', f s b = Except.ok s' → P s → P s') :
    ∀ (l : List β) (s s' : σ), l.foldlM f s = Except.ok s' → P s → P s' := by
  intro l
  induction l with
  | nil =>
    intro s s' h hp
    rw [foldlM_except_nil] at h
    injection h with he
    rw [← he]
    exact hp
  | cons b rest ih =>
    intro s s' h hp
    obtain ⟨s1, h1, h2⟩ := (foldlM_except_cons_ok _ _ _ _ _).mp h
    exact ih s1 s' h2 (hf s b s1 h1 hp)

theorem rwRevCell_nodup (row : List String) (d d' : List (String × RwStats))
    (p : Nat × Nat) (h : rwRevCell row d p = Except.ok d')
    (hnd : (dKeys d).Nodup) : (dKeys d').Nodup := by
  unfold rwRevCell at h
  cases hn : pyGet row (p.1 : Int) with
  | error e =>
    rw [hn] at h
    simp only [except_bind_error] at h
    exact Except.noConfusion h
  | ok nameV =>
    rw [hn] at h
    simp only [except_bind_ok] at h
    by_cases hne : pyStrip nameV ≠ ""
    · rw [if_pos hne] at h
      cases hs : pyGet row (p.2 : Int) with
      | error e =>
        rw [hs] at h
        simp only [except_bind_error] at h
        exact Except.noConfusion h
      | ok scoreV =>
        rw [hs] at h
        simp only [except_bind_ok, except_pure] at h
        injection h with he
        rw [← he]
        have hnd1 : (dKeys (if dHas d (pyStrip nameV) = true then
            if pyStrip scoreV ≠ "T" then
              dUpd d (pyStrip nameV) (fun g => { g with total := g.total + 1 })
            else d
          else d ++ [(pyStrip nameV, ⟨0, 1⟩)])).Nodup := by
          by_cases hh : dHas d (pyStrip nameV)
          · rw [if_pos hh]
            by_cases ht : pyStrip scoreV ≠ "T"
            · rw [if_pos ht]
              exact nodup_keys_dUpd _ _ _ hnd
            · rw [if_neg ht]
              exact hnd
          · rw [if_neg hh]
            exact nodup_keys_append_fresh d _ _ hnd (Bool.of_not_eq_true hh)
        by_cases hm : matchDecimalPrefix (pyStrip scoreV)
        · rw [if_pos hm]
          exact nodup_keys_dUpd _ _ _ hnd1
        · rw [if_neg hm]
          exact hnd1
    · rw [if_neg hne] at h
      rw [except_pure] at h
      injection h with he
      rw [← he]
      exact hnd

theorem rwPcCell_nodup (row : List String) (d d' : List (String × RwStats))
    (p : Nat × Nat) (h : rwPcCell row d p = Except.ok d')
    (hnd : (dKeys d).Nodup) : (dKeys d').Nodup := by
  unfold rwPcCell at h
  cases hn : pyGet row (p.1 : Int) with
  | error e =>
    rw [hn] at h
    simp only [except_bind_error] at h
    exact Except.noConfusion h
  | ok nameV =>
    rw [hn] at h
    simp only [except_bind_ok] at h
    by_cases hne : pyStrip nameV ≠ ""
    · rw [if_pos hne] at h
      cases hs : pyGet row (p.2 : Int) with
      | error e =>
        rw [hs] at h
        simp only [except_bind_error] at h
        exact Except.noConfusion h
      | ok scoreV =>
        rw [hs] at h
        simp only [except_bind_ok, except_pure] at h
        injection h with he
        rw [← he]
        have hnd1 : (dKeys (if dHas d (pyStrip nameV) = true then
            dUpd d (pyStrip nameV) (fun g => { g with total := g.total + 1 })
          else d ++ [(pyStrip nameV, ⟨0, 1⟩)])).Nodup := by
          by_cases hh : dHas d (pyStrip nameV)
          · rw [if_pos hh]
            exact nodup_keys_dUpd _ _ _ hnd
          · rw [if_neg hh]
            exact nodup_keys_append_fresh d _ _ hnd (Bool.of_not_eq_true hh)
        by_cases hm : matchDecimalPrefix (pyStrip scoreV)
        · rw [if_pos hm]
          exact nodup_keys_dUpd _ _ _ hnd1
        · rw [if_neg hm]
          exact hnd1
    · rw [if_neg hne] at h
      rw [except_pure] at h
      injection h with he
      rw [← he]
      exact hnd

theorem rwStep_nodup (c : RwCols) (s s' : RwState) (row : List String)
    (h : rwStep c s row = Except.ok s')
    (hnd : (dKeys s.pc).Nodup ∧ (dKeys s.ext).Nodup) :
    (dKeys s'.pc).Nodup ∧ (dKeys s'.ext).Nodup := by
  unfold rwStep at h
  cases hdec : pyGet row c.dec with
  | error e =>
    rw [hdec] at h
    simp only [except_bind_error] at h
    exact Except.noConfusion h
  | ok dv =>
    rw [hdec] at h
    simp only [except_bind_ok] at h
    by_cases hkeep : pnwKeep dv
    · rw [if_pos hkeep] at h
      cases hext : c.revCols.foldlM (rwRevCell row) s.ext with
      | error e =>
        rw [hext] at h
        simp only [except_bind_error] at h
        exact Except.noConfusion h
      | ok ext' =>
        rw [hext] at h
        simp only [except_bind_ok] at h
        cases hpc : c.pcCols.foldlM (rwPcCell row) s.pc with
        | error e =>
          rw [hpc] at h
          simp only [except_bind_error] at h
          exact Except.noConfusion h
        | ok pc' =>
          rw [hpc] at h
          simp only [except_bind_ok, except_pure] at h
          injection h with he
          rw [← he]
          constructor
          · exact foldlM_except_preserve (rwPcCell row) (fun d => (dKeys d).Nodup)
              (fun d p d' hstep hp => rwPcCell_nodup row d d' p hstep hp)
              c.pcCols s.pc pc' hpc hnd.1
          · exact foldlM_except_preserve (rwRevCell row) (fun d => (dKeys d).Nodup)
              (fun d p d' hstep hp => rwRevCell_nodup row d d' p hstep hp)
              c.revCols s.ext ext' hext hnd.2
    · rw [if_neg hkeep] at h
      rw [except_pure] at h
      injection h with he
      rw [← he]
      exact hnd

/-- Decomposition of a successful `papers_needing_work` run. -/
theorem pnwRun_ok (header : List String) (rows : List (List String))
    (out : List (String × PnwStats)) (h : pnwRun header rows = Except.ok out) :
    ∃ st, rows.foldlM (pnwStep (pnwResolve header)) [] = Except.ok st ∧
      out = sortByKey st := by
  unfold pnwRun at h
  by_cases h1 : (pnwResolve header).s1 = -1
  · rw [if_pos h1] at h
    exact Except.noConfusion h
  · rw [if_neg h1] at h
    by_cases h2 : (pnwResolve header).dec = -1
    · rw [if_pos h2] at h
      exact Except.noConfusion h
    · rw [if_neg h2] at h
      cases hf : rows.foldlM (pnwStep (pnwResolve header)) [] with
      | error e =>
        rw [hf] at h
        simp only [except_bind_error] at h
        exact Except.noConfusion h
      | ok st =>
        rw [hf] at h
        simp only [except_bind_ok, except_pure] at h
        injection h with he
        exact ⟨st, rfl, he.symm⟩

/-- Decomposition of a successful `papers_needing_review_work` run. -/
theorem rwRun_ok (header : List String) (rows : List (List String))
    (out : List (String × Bool × RwStats)) (h : rwRun header rows = Except.ok out) :
    ∃ st : RwState, rows.foldlM (rwStep (rwResolve header)) ⟨[], []⟩ = Except.ok st ∧
      out = (sortByKey st.pc).map (fun p => (p.1, true, p.2)) ++
        (sortByKey st.ext).map (fun p => (p.1, false, p.2)) := by
  unfold rwRun at h
  by_cases h1 : (rwResolve header).dec = -1
  · rw [if_pos h1] at h
    exact Except.noConfusion h
  · rw [if_neg h1] at h
    cases hf : rows.foldlM (rwStep (rwResolve header)) ⟨[], []⟩ with
    | error e =>
      rw [hf] at h
      simp only [except_bind_error] at h
      exact Except.noConfusion h
    | ok st =>
      rw [hf] at h
      simp only [except_bind_ok, except_pure] at h
      injection h with he
      exact ⟨st, rfl, he.symm⟩

/-- Strict key ordering survives tagging each item with a flag. -/
theorem pairwise_lt_map_flag {α : Type} (d : List (String × α)) (b : Bool)
    (h : List.Pairwise (fun a c : String × α => a.1 < c.1) d) :
    List.Pairwise (fun a c : String × Bool × α => a.1 < c.1)
      (d.map (fun p => (p.1, b, p.2))) := by
  rw [List.pairwise_map]
  exact h

/-- Claim C4 counterexample: on a row whose `S1name` and `E1name` cells hold
the same name, the reviewer-workload tally emits that name twice (once in the
PC block and once in the external block), so its group key is not unique and
the full table is not sorted by a unique key. -/
theorem claim4_counterexample :
    Except.map (List.map (fun r : String × Bool × RwStats => r.1))
      (rwRun ["Decision", "S1name", "S1score", "E1name", "E1score"]
        [["RER", "Ann", "1.0", "Ann", "2.0"]]) = Except.ok ["Ann", "Ann"] ∧
    ¬ (["Ann", "Ann"] : List String).Nodup := by
  constructor
  · decide
  · decide

/-- Claim C4 (amended): the per-primary aggregator's output is strictly sorted
by group key (hence keys are unique); the reviewer-workload tally's output is
two blocks — the PC block (flag true) followed by the external block (flag
false) — each strictly sorted by name internally, but one name may appear in
both blocks and the concatenation need not be globally sorted. -/
theorem claim4_sorted_outputs :
    (∀ (header : List String) (rows : List (List String))
       (out : List (String × PnwStats)),
      pnwRun header rows = Except.ok out →
      List.Pairwise (fun a b : String × PnwStats => a.1 < b.1) out) ∧
    (∀ (header : List String) (rows : List (List String))
       (out : List (String × Bool × RwStats)),
      rwRun header rows = Except.ok out →
      ∃ pcs exts, out = pcs ++ exts ∧
        List.Pairwise (fun a b : String × Bool × RwStats => a.1 < b.1) pcs ∧
        List.Pairwise (fun a b : String × Bool × RwStats => a.1 < b.1) exts ∧
        (∀ r ∈ pcs, r.2.1 = true) ∧ (∀ r ∈ exts, r.2.1 = false)) := by
  constructor
  · intro header rows out h
    obtain ⟨st, hf, rfl⟩ := pnwRun_ok header rows out h
    have hnd : (dKeys st).Nodup :=
      pnwFold_nodup (pnwResolve header) rows [] st hf List.nodup_nil
    exact sortByKey_strict st hnd
  · intro header rows out h
    obtain ⟨st, hf, rfl⟩ := rwRun_ok header rows out h
    have hnd : (dKeys st.pc).Nodup ∧ (dKeys st.ext).Nodup := by
      refine foldlM_except_preserve (rwStep (rwResolve header))
        (fun s : RwState => (dKeys s.pc).Nodup ∧ (dKeys s.ext).Nodup)
        (fun s row s' hstep hp => rwStep_nodup (rwResolve header) s s' row hstep hp)
        rows ⟨[], []⟩ st hf ⟨List.nodup_nil, List.nodup_nil⟩
    refine ⟨(sortByKey st.pc).map (fun p => (p.1, true, p.2)),
      (sortByKey st.ext).map (fun p => (p.1, false, p.2)), rfl,
      pairwise_lt_map_flag _ true (sortByKey_strict st.pc hnd.1),
      pairwise_lt_map_flag _ false (sortByKey_strict st.ext hnd.2), ?_, ?_⟩
    · intro r hr
      obtain ⟨p, _, rfl⟩ := List.mem_map.mp hr
      rfl
    · intro r hr
      obtain ⟨p, _, rfl⟩ := List.mem_map.mp hr
      rfl

/-- Claim C4 witness: concrete sorted outputs of both aggregating scripts. -/
theorem claim4_witness :
    List.Pairwise (fun a b : String × PnwStats => a.1 < b.1)
      [("A", ⟨"RER", 1, 1, 0, 2, 0, 0, 0, 0⟩), ("B", ⟨"RER", 1, 1, 0, 2, 0, 0, 0, 0⟩)] ∧
    (∃ pcs exts,
      ([("Ann", true, ⟨1, 1⟩), ("Ann", false, ⟨1, 1⟩)] :
        List (String × Bool × RwStats)) = pcs ++ exts ∧
      List.Pairwise (fun a b : String × Bool × RwStats => a.1 < b.1) pcs ∧
      List.Pairwise (fun a b : String × Bool × RwStats => a.1 < b.1) exts ∧
      (∀ r ∈ pcs, r.2.1 = true) ∧ (∀ r ∈ exts, r.2.1 = false)) :=
  ⟨claim4_sorted_outputs.1 ["Pname", "Decision"] [["B", "RER"], ["A", "RER"]]
      [("A", ⟨"RER", 1, 1, 0, 2, 0, 0, 0, 0⟩), ("B", ⟨"RER", 1, 1, 0, 2, 0, 0, 0, 0⟩)]
      (by decide),
   claim4_sorted_outputs.2 ["Decision", "S1name", "S1score", "E1name", "E1score"]
      [["RER", "Ann", "1.0", "Ann", "2.0"]]
      [("Ann", true, ⟨1, 1⟩), ("Ann", false, ⟨1, 1⟩)] (by decide)⟩

/-! ### Header resolution facts and the subcommittee fallback (claim C10) -/

theorem pnwResolveAux_sub_pres (header : List String) :
    ∀ (cols : List String) (acc : PnwCols) (i : Nat),
      "Subcommittee" ∉ cols → (pnwResolveAux header acc i cols).sub = acc.sub := by
  intro cols
  induction cols with
  | nil => intro acc i _; rfl
  | cons col cols ih =>
    intro acc i h
    rw [List.mem_cons] at h
    push_neg at h
    obtain ⟨h1, h2⟩ := h
    show (pnwResolveAux header _ (i + 1) cols).sub = acc.sub
    rw [ih _ (i + 1) h2]
    by_cases hc1 : col = "Pname"
    · simp only [if_pos hc1]
    · rw [if_neg hc1]
      by_cases hc2 : col = "Decision"
      · simp only [if_pos hc2]
      · rw [if_neg hc2]
        have hc3 : ¬ col = "Subcommittee" := fun he => h1 he.symm
        rw [if_neg hc3]
        split
        · split <;> rfl
        · split
          · split <;> rfl
          · rfl

theorem pnwResolveAux_s1_mono (header : List String) :
    ∀ (cols : List String) (acc : PnwCols) (i : Nat),
      0 ≤ acc.s1 → 0 ≤ (pnwResolveAux header acc i cols).s1 := by
  intro cols
  induction cols with
  | nil => intro acc i h; exact h
  | cons col cols ih =>
    intro acc i h
    show 0 ≤ (pnwResolveAux header _ (i + 1) cols).s1
    refine ih _ (i + 1) ?_
    by_cases hc1 : col = "Pname"
    · simp only [if_pos hc1]
      exact Int.natCast_nonneg i
    · rw [if_neg hc1]
      by_cases hc2 : col = "Decision"
      · simp only [if_pos hc2]; exact h
      · rw [if_neg hc2]
        by_cases hc3 : col = "Subcommittee"
        · simp only [if_pos hc3]; exact h
        · rw [if_neg hc3]
          split
          · split <;> exact h
          · split
            · split <;> exact h
            · exact h

theorem pnwResolveAux_s1_found (header : List String) :
    ∀ (cols : List String) (acc : PnwCols) (i : Nat),
      "Pname" ∈ cols → 0 ≤ (pnwResolveAux header acc i cols).s1 := by
  intro cols
  induction cols with
  | nil => intro acc i h; exact absurd h (List.not_mem_nil _)
  | cons col cols ih =>
    intro acc i h
    show 0 ≤ (pnwResolveAux header _ (i + 1) cols).s1
    by_cases hc1 : col = "Pname"
    · refine pnwResolveAux_s1_mono header cols _ (i + 1) ?_
      simp only [if_pos hc1]
      exact Int.natCast_nonneg i
    · rcases List.mem_cons.mp h with he | hm
      · exact absurd he.symm hc1
      · exact ih _ (i + 1) hm

theorem pnwResolveAux_dec_mono (header : List String) :
    ∀ (cols : List String) (acc : PnwCols) (i : Nat),
      0 ≤ acc.dec → 0 ≤ (pnwResolveAux header acc i cols).dec := by
  intro cols
  induction cols with
  | nil => intro acc i h; exact h
  | cons col cols ih =>
    intro acc i h
    show 0 ≤ (pnwResolveAux header _ (i + 1) cols).dec
    refine ih _ (i + 1) ?_
    by_cases hc1 : col = "Pname"
    · simp only [if_pos hc1]; exact h
    · rw [if_neg hc1]
      by_cases hc2 : col = "Decision"
      · simp only [if_pos hc2]
        exact Int.natCast_nonneg i
      · rw [if_neg hc2]
        by_cases hc3 : col = "Subcommittee"
        · simp only [if_pos hc3]; exact h
        · rw [if_neg hc3]
          split
          · split <;> exact h
          · split
            · split <;> exact h
            · exact h

theorem pnwResolveAux_dec_found (header : List String) :
    ∀ (cols : List String) (acc : PnwCols) (i : Nat),
      "Decision" ∈ cols → 0 ≤ (pnwResolveAux header acc i cols).dec := by
  intro cols
  induction cols with
  | nil => intro acc i h; exact absurd h (List.not_mem_nil _)
  | cons col cols ih =>
    intro acc i h
    show 0 ≤ (pnwResolveAux header _ (i + 1) cols).dec
    by_cases hc2 : col = "Decision"
    · refine pnwResolveAux_dec_mono header cols _ (i + 1) ?_
      by_cases hc1 : col = "Pname"
      · exact absurd (hc1 ▸ hc2) (by decide)
      · rw [if_neg hc1]
        simp only [if_pos hc2]
        exact Int.natCast_nonneg i
    · rcases List.mem_cons.mp h with he | hm
      · exact absurd he.symm hc2
      · exact ih _ (i + 1) hm

theorem firstRetained_cons_pos (c : PnwCols) (row : List String)
    (rest : List (List String)) (k : String) (h : retainedKeyOf c row = some k) :
    firstRetained c (row :: rest) k = some row := by
  unfold firstRetained
  rw [List.find?_cons_of_pos]
  simp [h]

theorem firstRetained_cons_neg (c : PnwCols) (row : List String)
    (rest : List (List String)) (k : String) (h : retainedKeyOf c row ≠ some k) :
    firstRetained c (row :: rest) k = firstRetained c rest k := by
  unfold firstRetained
  rw [List.find?_cons_of_neg]
  simp [h]

/-- The `sub` field of pnwApply is untouched. -/
theorem pnwApply_sub (conf tent comp pcComp : Int) (g : PnwStats) :
    (pnwApply conf tent comp pcComp g).sub = g.sub := rfl

/-- Where the Subcommittee field of every tracked key comes from: either it was
already in the state, or it was read (with the resolved subcommittee index)
from the first retained row with that key. -/
theorem pnwFold_sub (c : PnwCols) :
    ∀ (rows : List (List String)) (st0 st : List (String × PnwStats)),
      rows.foldlM (pnwStep c) st0 = Except.ok st →
      ∀ k g, dGet? st k = some g →
        (∃ g0, dGet? st0 k = some g0 ∧ g.sub = g0.sub) ∨
        (dGet? st0 k = none ∧ ∃ r, firstRetained c rows k = some r ∧
          pyGet r c.sub = Except.ok g.sub) := by
  intro rows
  induction rows with
  | nil =>
    intro st0 st h k g hg
    rw [foldlM_except_nil] at h
    injection h with he
    rw [← he] at hg
    exact Or.inl ⟨g, hg, rfl⟩
  | cons row rest ih =>
    intro st0 st h k g hg
    obtain ⟨st1, h1, h2⟩ := (foldlM_except_cons_ok _ _ _ _ _).mp h
    rcases ih st1 st h2 k g hg with ⟨g1, hg1, hsub⟩ | ⟨hst1none, r, hfr, hpy⟩
    · rcases pnwStep_lookup c st0 row st1 h1 k with ⟨hneq, heq⟩ |
        ⟨cnt, pcc, hret, _, _, hcase⟩
      · rw [heq] at hg1
        exact Or.inl ⟨g1, hg1, hsub⟩
      · rcases hcase with ⟨g0, hg0, hg1'⟩ | ⟨hnone, subv, hsubget, hg1'⟩
        · rw [hg1'] at hg1
          injection hg1 with he1
          refine Or.inl ⟨g0, hg0, ?_⟩
          rw [hsub, ← he1, pnwApply_sub]
        · rw [hg1'] at hg1
          injection hg1 with he1
          refine Or.inr ⟨hnone, row, firstRetained_cons_pos c row rest k hret, ?_⟩
          rw [hsubget]
          have : g.sub = subv := by rw [hsub, ← he1, pnwApply_sub]; rfl
          rw [this]
    · rcases pnwStep_lookup c st0 row st1 h1 k with ⟨hneq, heq⟩ |
        ⟨cnt, pcc, hret, _, _, hcase⟩
      · refine Or.inr ⟨by rw [← heq]; exact hst1none, r, ?_, hpy⟩
        rw [firstRetained_cons_neg c row rest k hneq]
        exact hfr
      · exfalso
        rcases hcase with ⟨g0, _, hg1'⟩ | ⟨_, subv, _, hg1'⟩ <;>
          rw [hg1'] at hst1none <;> exact Option.noConfusion hst1none

theorem getLast?_eq_getD : ∀ (l : List String) (a : String),
    (a :: l).getLast? = some ((a :: l).getD l.length "")
  | [], _ => rfl
  | b :: l, a => by
    rw [List.getLast?_cons_cons]
    exact getLast?_eq_getD l b

/-- Python `row[-1]` reads the last element. -/
theorem pyGet_neg_one (r : List String) (v : String) :
    pyGet r (-1) = Except.ok v ↔ r.getLast? = some v := by
  cases r with
  | nil =>
    constructor
    · intro h
      unfold pyGet at h
      simp only [List.length_nil] at h
      norm_num at h
      exact Except.noConfusion h
    · intro h
      exact Option.noConfusion h
  | cons a l =>
    unfold pyGet
    have h1 : ¬ (0 ≤ (-1 : Int) ∧ (-1 : Int) < ((a :: l).length : Int)) := by
      intro hc
      omega
    have h2 : -(((a :: l).length : Int)) ≤ -1 ∧ (-1 : Int) < 0 := by
      constructor
      · have : 1 ≤ (a :: l).length := Nat.succ_le_succ (Nat.zero_le _)
        omega
      · omega
    rw [if_neg h1, if_pos h2]
    have hidx : ((-1 : Int) + ((a :: l).length : Int)).toNat = l.length := by
      rw [List.length_cons]
      omega
    rw [hidx, getLast?_eq_getD l a]
    constructor
    · intro h
      injection h with he
      rw [he]
    · intro h
      injection h with he
      rw [he]

/-- Run `pnwRun` is header resolution followed by the row fold (no abort) when the
mandatory columns resolve. -/
theorem pnwRun_eq_fold (header : List String) (rows : List (List String))
    (h1 : (pnwResolve header).s1 ≠ -1) (h2 : (pnwResolve header).dec ≠ -1) :
    pnwRun header rows =
      Except.map sortByKey (rows.foldlM (pnwStep (pnwResolve header)) []) := by
  unfold pnwRun
  rw [if_neg h1, if_neg h2]
  cases hf : rows.foldlM (pnwStep (pnwResolve header)) [] with
  | error e => rfl
  | ok st => rfl

/-- Claim C10: when the header has `Pname` and `Decision` but no
`Subcommittee` column, the script does not abort: the subcommittee index stays
`-1`, and (because Python interprets index `-1` as the last element) the
Subcommittee field recorded for each group key is the value of the last
column of the first retained row seen for that key. -/
theorem claim10_subcommittee_fallback (header : List String)
    (rows : List (List String))
    (hsub : "Subcommittee" ∉ header) (hp : "Pname" ∈ header)
    (hd : "Decision" ∈ header) :
    ((pnwResolve header).sub = -1 ∧
     (pnwResolve header).s1 ≠ -1 ∧ (pnwResolve header).dec ≠ -1 ∧
     pnwRun header rows =
       Except.map sortByKey (rows.foldlM (pnwStep (pnwResolve header)) [])) ∧
    (∀ out, pnwRun header rows = Except.ok out →
      ∀ k g, (k, g) ∈ out →
        ∃ r, firstRetained (pnwResolve header) rows k = some r ∧
          r.getLast? = some g.sub) := by
  have hs1 : 0 ≤ (pnwResolve header).s1 :=
    pnwResolveAux_s1_found header header _ 0 hp
  have hdec : 0 ≤ (pnwResolve header).dec :=
    pnwResolveAux_dec_found header header _ 0 hd
  have h1 : (pnwResolve header).s1 ≠ -1 := by omega
  have h2 : (pnwResolve header).dec ≠ -1 := by omega
  have hsubi : (pnwResolve header).sub = -1 :=
    pnwResolveAux_sub_pres header header _ 0 hsub
  refine ⟨⟨hsubi, h1, h2, pnwRun_eq_fold header rows h1 h2⟩, ?_⟩
  intro out hout k g hmem
  obtain ⟨st, hf, rfl⟩ := pnwRun_ok header rows out hout
  have hnd : (dKeys st).Nodup :=
    pnwFold_nodup (pnwResolve header) rows [] st hf List.nodup_nil
  have hmem' : (k, g) ∈ st := (mem_sortByKey st (k, g)).mp hmem
  have hget : dGet? st k = some g := (mem_iff_dGet? st k g hnd).mp hmem'
  rcases pnwFold_sub (pnwResolve header) rows [] st hf k g hget with
    ⟨g0, hg0, _⟩ | ⟨_, r, hfr, hpy⟩
  · exact absurd hg0 (by rw [dGet?_nil]; exact fun hc => Option.noConfusion hc)
  · refine ⟨r, hfr, ?_⟩
    rw [hsubi] at hpy
    exact (pyGet_neg_one r g.sub).mp hpy

/-- Claim C10 witness: a concrete header without a Subcommittee column. -/
theorem claim10_witness :
    (pnwResolve ["Pname", "Decision"]).sub = -1 ∧
    (∃ r, firstRetained (pnwResolve ["Pname", "Decision"]) [["X", "RER"]] "X" =
        some r ∧ r.getLast? = some "RER") :=
  ⟨(claim10_subcommittee_fallback ["Pname", "Decision"] [["X", "RER"]]
      (by decide) (by decide) (by decide)).1.1,
   (claim10_subcommittee_fallback ["Pname", "Decision"] [["X", "RER"]]
      (by decide) (by decide) (by decide)).2
      [("X", pnwApply 0 0 0 0 (pnwInit "RER"))] (by decide)
      "X" (pnwApply 0 0 0 0 (pnwInit "RER")) (by decide)⟩

/-! ### Counter lemmas -/

theorem contains_iff_mem (l : List String) (a : String) :
    l.contains a = true ↔ a ∈ l := List.elem_iff

theorem dGet?_some_of_dHas {α : Type} (d : List (String × α)) (k : String) (v0 : α)
    (h : dHas d k = true) : dGet? d k = some (dGetD d k v0) := by
  unfold dHas at h
  cases hd : dGet? d k with
  | none => rw [hd] at h; exact Bool.noConfusion h
  | some v => rw [dGetD, hd]; rfl

theorem bump_dGetD (d : List (String × Int)) (a k : String) :
    dGetD (bump d a) k 0 = dGetD d k 0 + (if a = k then 1 else 0) := by
  unfold bump
  by_cases hh : dHas d a
  · rw [if_pos hh]
    by_cases hak : a = k
    · subst hak
      rw [dGetD, dGet?_dUpd_self, dGet?_some_of_dHas d a 0 hh]
      simp
    · rw [dGetD, dGet?_dUpd_ne d a k _ (fun he => hak he.symm), if_neg hak, add_zero]
      rfl
  · rw [if_neg hh]
    by_cases hak : a = k
    · subst hak
      rw [dGetD, dGet?_append_single_self d a 1 (dHas_false_dGet?_none d a
        (Bool.of_not_eq_true hh))]
      rw [dGetD, dHas_false_dGet?_none d a (Bool.of_not_eq_true hh)]
      simp
    · rw [dGetD, dGet?_append_single_ne d a k 1 (fun he => hak he.symm),
        if_neg hak, add_zero]
      rfl

theorem bump_dHas (d : List (String × Int)) (a k : String) :
    dHas (bump d a) k = (dHas d k || a == k) := by
  unfold bump
  by_cases hh : dHas d a
  · rw [if_pos hh]
    unfold dHas
    by_cases hak : a = k
    · subst hak
      rw [dGet?_dUpd_self, dGet?_some_of_dHas d a 0 hh]
      simp [hh]
    · rw [dGet?_dUpd_ne d a k _ (fun he => hak he.symm)]
      simp [dHas, hak]
  · rw [if_neg hh]
    unfold dHas
    by_cases hak : a = k
    · subst hak
      rw [dGet?_append_single_self d a 1 (dHas_false_dGet?_none d a
        (Bool.of_not_eq_true hh))]
      simp [Bool.of_not_eq_true hh]
    · rw [dGet?_append_single_ne d a k 1 (fun he => hak he.symm)]
      simp [dHas, hak]

theorem bump_nodup (d : List (String × Int)) (a : String)
    (h : (dKeys d).Nodup) : (dKeys (bump d a)).Nodup := by
  unfold bump
  by_cases hh : dHas d a
  · rw [if_pos hh]
    exact nodup_keys_dUpd d a _ h
  · rw [if_neg hh]
    exact nodup_keys_append_fresh d a 1 h (Bool.of_not_eq_true hh)

theorem foldl_bump_dGetD : ∀ (l : List String) (d : List (String × Int)) (k : String),
    dGetD (l.foldl bump d) k 0 = dGetD d k 0 + (l.count k : Int) := by
  intro l
  induction l with
  | nil => intro d k; simp [List.foldl]
  | cons a l ih =>
    intro d k
    rw [List.foldl_cons, ih (bump d a) k, bump_dGetD d a k, List.count_cons]
    by_cases hak : a = k
    · subst hak
      simp only [beq_self_eq_true, if_pos rfl, if_true]
      push_cast
      ring
    · have h1 : (a == k) = false := by simp [hak]
      rw [h1]
      simp [hak]

theorem foldl_bump_dHas : ∀ (l : List String) (d : List (String × Int)) (k : String),
    dHas (l.foldl bump d) k = (dHas d k || l.contains k) := by
  intro l
  induction l with
  | nil => intro d k; simp [List.foldl]
  | cons a l ih =>
    intro d k
    rw [List.foldl_cons, ih (bump d a) k, bump_dHas d a k]
    by_cases hak : a = k
    · subst hak
      simp [List.contains_cons]
    · have h1 : (a == k) = false := by simp [hak]
      have h2 : (k == a) = false := by simp [Ne.symm hak]
      have h3 : ¬ k = a := Ne.symm hak
      simp [List.contains_cons, h1, h2, h3]

theorem foldl_bump_nodup : ∀ (l : List String) (d : List (String × Int)),
    (dKeys d).Nodup → (dKeys (l.foldl bump d)).Nodup := by
  intro l
  induction l with
  | nil => intro d h; exact h
  | cons a l ih =>
    intro d h
    rw [List.foldl_cons]
    exact ih (bump d a) (bump_nodup d a h)

theorem counter_dGetD (l : List String) (k : String) :
    dGetD (counter l) k 0 = (l.count k : Int) := by
  unfold counter
  rw [foldl_bump_dGetD l [] k]
  simp [dGetD, dGet?_nil]

theorem counter_dHas (l : List String) (k : String) :
    dHas (counter l) k = l.contains k := by
  unfold counter
  rw [foldl_bump_dHas l [] k]
  rfl

theorem counter_nodup (l : List String) : (dKeys (counter l)).Nodup :=
  foldl_bump_nodup l [] List.nodup_nil

theorem counter_dGet? (l : List String) (k : String) :
    dGet? (counter l) k =
      (if k ∈ l then some ((l.count k : Int)) else none) := by
  by_cases hm : k ∈ l
  · rw [if_pos hm]
    have hh : dHas (counter l) k = true := by
      rw [counter_dHas]
      exact (contains_iff_mem l k).mpr hm
    rw [dGet?_some_of_dHas (counter l) k 0 hh, counter_dGetD]
  · rw [if_neg hm]
    refine dHas_false_dGet?_none _ _ ?_
    rw [counter_dHas]
    cases hc : l.contains k with
    | false => rfl
    | true => exact absurd ((contains_iff_mem l k).mp hc) hm

/-! ### Dictionary map/filter lemmas for `counterSub` -/

theorem dKeys_mapVal {α β : Type} (d : List (String × α)) (g : String → α → β) :
    dKeys (d.map (fun p => (p.1, g p.1 p.2))) = dKeys d := by
  induction d with
  | nil => rfl
  | cons p d ih =>
    simp only [List.map_cons, dKeys]
    rw [show ((p.1, g p.1 p.2) : String × β).1 = p.1 from rfl]
    exact congrArg (p.1 :: ·) ih

theorem dGet?_mapVal {α β : Type} (d : List (String × α)) (g : String → α → β)
    (k : String) :
    dGet? (d.map (fun p => (p.1, g p.1 p.2))) k = (dGet? d k).map (g k) := by
  induction d with
  | nil => rfl
  | cons p d ih =>
    rw [List.map_cons, dGet?_cons, dGet?_cons]
    by_cases h : p.1 = k
    · subst h
      rw [if_pos rfl, if_pos rfl]
      rfl
    · rw [if_neg h, if_neg h]
      exact ih

theorem dGet?_filterKey {α : Type} (d : List (String × α)) (q : String → Bool)
    (k : String) :
    dGet? (d.filter (fun p => q p.1)) k = if q k then dGet? d k else none := by
  induction d with
  | nil => simp [dGet?_nil]
  | cons p d ih =>
    by_cases hq : q p.1
    · rw [List.filter_cons_of_pos (by simpa using hq), dGet?_cons, dGet?_cons]
      by_cases h : p.1 = k
      · subst h
        rw [if_pos rfl, if_pos rfl, if_pos hq]
      · rw [if_neg h, if_neg h, ih]
    · rw [List.filter_cons_of_neg (by simpa using hq), dGet?_cons, ih]
      by_cases h : p.1 = k
      · subst h
        rw [if_neg (by simpa using hq), if_neg (by simpa using hq)]
      · rw [if_neg h]

theorem counterSub_dGet? (a b : List (String × Int)) (k : String) :
    dGet? (counterSub a b) k =
      match dGet? a k with
      | some v => some (v - dGetD b k 0)
      | none => (dGet? b k).map (fun v => 0 - v) := by
  unfold counterSub
  rw [dGet?_append]
  rw [show (fun p : String × Int => (p.1, p.2 - dGetD b p.1 0)) =
    (fun p : String × Int => (p.1, (fun kk vv => vv - dGetD b kk 0) p.1 p.2)) from rfl]
  rw [dGet?_mapVal a (fun kk vv => vv - dGetD b kk 0) k]
  cases ha : dGet? a k with
  | some v => rfl
  | none =>
    simp only [Option.map_none']
    rw [show (fun p : String × Int => (p.1, 0 - p.2)) =
      (fun p : String × Int => (p.1, (fun _ vv => (0 : Int) - vv) p.1 p.2)) from rfl]
    rw [dGet?_mapVal (b.filter (fun p => !(dHas a p.1))) (fun _ vv => (0 : Int) - vv) k,
      dGet?_filterKey b (fun s => !(dHas a s)) k]
    have hh : dHas a k = false := dGet?_none_dHas_false a k ha
    rw [hh]
    simp

theorem counterSub_nodup (a b : List (String × Int))
    (hna : (dKeys a).Nodup) (hnb : (dKeys b).Nodup) :
    (dKeys (counterSub a b)).Nodup := by
  unfold counterSub
  rw [dKeys_append]
  rw [show (fun p : String × Int => (p.1, p.2 - dGetD b p.1 0)) =
    (fun p : String × Int => (p.1, (fun kk vv => vv - dGetD b kk 0) p.1 p.2)) from rfl]
  rw [show (fun p : String × Int => (p.1, 0 - p.2)) =
    (fun p : String × Int => (p.1, (fun _ vv => (0 : Int) - vv) p.1 p.2)) from rfl]
  rw [dKeys_mapVal a (fun kk vv => vv - dGetD b kk 0),
    dKeys_mapVal (b.filter (fun p => !(dHas a p.1))) (fun _ vv => (0 : Int) - vv)]
  rw [List.nodup_append]
  refine ⟨hna, ?_, ?_⟩
  · exact ((List.filter_sublist b).map Prod.fst).nodup hnb
  · intro x hx hx2
    have : ∃ p, p ∈ b.filter (fun p => !(dHas a p.1)) ∧ p.1 = x := by
      obtain ⟨p, hp, he⟩ := List.mem_map.mp hx2
      exact ⟨p, hp, he⟩
    obtain ⟨p, hp, rfl⟩ := this
    have hpred := (List.mem_filter.mp hp).2
    rw [Bool.not_eq_eq_eq_not, Bool.not_true] at hpred
    exact not_mem_keys_of_dHas_false a p.1 hpred hx

/-! ### Claim C8: the orchestrator's join -/

theorem filterMap_joinF_filter (t : List (String × Int)) (n : String) :
    ∀ (c : List (String × Int)), (dKeys c).Nodup →
      ((c.filterMap (joinF t)).filter (fun r => r.1 == n)) =
        (match dGet? c n with
         | some cnt => if 0 < dGetD t n 0 then [(n, cnt, dGetD t n 0)] else []
         | none => []) := by
  intro c
  induction c with
  | nil => intro _; rfl
  | cons p c ih =>
    intro hnd
    simp only [dKeys, List.map_cons, List.nodup_cons] at hnd
    rw [List.filterMap_cons, dGet?_cons]
    by_cases hpn : p.1 = n
    · subst hpn
      have hnone : dGet? c p.1 = none :=
        dGet?_eq_none_of_not_mem_keys c p.1 hnd.1
      have hrest : ((c.filterMap (joinF t)).filter (fun r => r.1 == p.1)) = [] := by
        rw [ih hnd.2, hnone]
      rw [if_pos rfl]
      by_cases hpos : 0 < dGetD t p.1 0
      · have hj : joinF t p = some (p.1, p.2, dGetD t p.1 0) := by
          unfold joinF
          rw [if_pos hpos]
        rw [hj]
        show ((p.1, p.2, dGetD t p.1 0) :: c.filterMap (joinF t)).filter
            (fun r => r.1 == p.1) =
          if 0 < dGetD t p.1 0 then [(p.1, p.2, dGetD t p.1 0)] else []
        rw [List.filter_cons_of_pos (by simp), hrest, if_pos hpos]
      · have hj : joinF t p = none := by
          unfold joinF
          rw [if_neg hpos]
        rw [hj]
        show (c.filterMap (joinF t)).filter (fun r => r.1 == p.1) =
          if 0 < dGetD t p.1 0 then [(p.1, p.2, dGetD t p.1 0)] else []
        rw [hrest, if_neg hpos]
    · rw [if_neg hpn]
      cases hj : joinF t p with
      | none => exact ih hnd.2
      | some r =>
        have hr1 : r.1 = p.1 := by
          unfold joinF at hj
          by_cases hpos : 0 < dGetD t p.1 0
          · rw [if_pos hpos] at hj
            injection hj with he
            rw [← he]
          · rw [if_neg hpos] at hj
            exact Option.noConfusion hj
        show (r :: c.filterMap (joinF t)).filter (fun x => x.1 == n) = _
        rw [List.filter_cons_of_neg (by simp [hr1, hpn])]
        exact ih hnd.2

/-- Claim C8: for every name counted in the declines list, the join emits
exactly one row `(name, decline count, tally count)` when the name's tally
count is strictly positive, and no row otherwise (names with a zero, negative
or absent tally are silently dropped); in particular the Dave scenario. -/
theorem claim8_join :
    (∀ (tally : List (String × Int)) (declines : List String) (n : String),
      (joinOut tally declines).filter (fun r => r.1 == n) =
        (if n ∈ declines ∧ 0 < dGetD tally n 0 then
          [(n, (declines.count n : Int), dGetD tally n 0)] else [])) ∧
    joinOut [("Dave", 3)] ["Dave", "Dave"] = [("Dave", 2, 3)] := by
  constructor
  · intro tally declines n
    unfold joinOut
    rw [filterMap_joinF_filter tally n (counter declines) (counter_nodup declines),
      counter_dGet? declines n]
    by_cases hm : n ∈ declines
    · rw [if_pos hm]
      show (if 0 < dGetD tally n 0 then
          [(n, ((declines.count n : Nat) : Int), dGetD tally n 0)] else []) =
        if n ∈ declines ∧ 0 < dGetD tally n 0 then
          [(n, ((declines.count n : Nat) : Int), dGetD tally n 0)] else []
      by_cases hpos : 0 < dGetD tally n 0
      · rw [if_pos hpos, if_pos ⟨hm, hpos⟩]
      · rw [if_neg hpos, if_neg (fun hc => hpos hc.2)]
    · rw [if_neg hm]
      show ([] : List (String × Int × Int)) = _
      rw [if_neg (fun hc => hm hc.1)]
  · decide

/-! ### Claim C9: the reviewer tally counts -/

/-- Decomposition of a successful `analyze_reviewers` run. -/
theorem arRun_ok (flds : List String) (rows : List (List String))
    (out : List (String × Int)) (h : arRun flds rows = Except.ok out) :
    ∃ r e, arCollect flds rows = Except.ok (r, e) ∧
      out = sortByKey (counterSub (counter r) (counter e)) := by
  unfold arRun at h
  by_cases hreq : arRequiredOk flds
  · rw [if_pos hreq] at h
    cases hc : arCollect flds rows with
    | error e =>
      rw [hc] at h
      simp only [except_bind_error] at h
      exact Except.noConfusion h
    | ok p =>
      obtain ⟨r0, e0⟩ := p
      rw [hc] at h
      simp only [except_bind_ok, except_pure] at h
      injection h with he
      exact ⟨r0, e0, rfl, he.symm⟩
  · rw [if_neg hreq] at h
    exact Except.noConfusion h

/-- Claim C9: the reviewer tally emits, for each name, the number of its
occurrences among the (comma-split, trimmed) `Reviewer 1/2/3` tokens of the
filtered rows minus the number of its occurrences among the `E<n>name`
tokens; zero and negative counts are kept, and every such name appears in the
output. -/
theorem claim9_reviewer_tally (flds : List String) (rows : List (List String))
    (r e : List String) (out : List (String × Int))
    (hcol : arCollect flds rows = Except.ok (r, e))
    (hrun : arRun flds rows = Except.ok out) :
    ∀ (name : String) (v : Int),
      (name, v) ∈ out ↔
        ((name ∈ r ∨ name ∈ e) ∧
          v = (r.count name : Int) - (e.count name : Int)) := by
  obtain ⟨r', e', hcol', hout⟩ := arRun_ok flds rows out hrun
  rw [hcol] at hcol'
  injection hcol' with hpe
  injection hpe with h1 h2
  subst h1
  subst h2
  subst hout
  intro name v
  have hnd : (dKeys (counterSub (counter r) (counter e))).Nodup :=
    counterSub_nodup _ _ (counter_nodup r) (counter_nodup e)
  rw [mem_sortByKey, mem_iff_dGet? _ name v hnd, counterSub_dGet?,
    counter_dGet? r name, counter_dGet? e name]
  by_cases hmr : name ∈ r
  · rw [if_pos hmr]
    constructor
    · intro hv
      injection hv with hv
      rw [counter_dGetD] at hv
      exact ⟨Or.inl hmr, hv.symm⟩
    · rintro ⟨_, rfl⟩
      rw [counter_dGetD]
  · rw [if_neg hmr]
    by_cases hme : name ∈ e
    · rw [if_pos hme]
      have hc0 : r.count name = 0 := List.count_eq_zero.mpr hmr
      constructor
      · intro hv
        simp only [Option.map_some'] at hv
        injection hv with hv
        refine ⟨Or.inr hme, ?_⟩
        rw [hc0, ← hv]
        push_cast
        ring
      · rintro ⟨_, rfl⟩
        simp only [Option.map_some']
        rw [hc0]
        norm_num
    · rw [if_neg hme]
      simp only [Option.map_none']
      constructor
      · intro hv
        exact Option.noConfusion hv
      · rintro ⟨hor, _⟩
        rcases hor with hm | hm
        · exact absurd hm hmr
        · exact absurd hm hme

/-- Claim C9 witness: a run with one positive and one negative tally entry. -/
theorem claim9_witness :
    ("Bob", (-1 : Int)) ∈ ([("Amy", 1), ("Bob", -1)] : List (String × Int)) ↔
      (("Bob" ∈ ["Amy"] ∨ "Bob" ∈ ["Bob"]) ∧
        (-1 : Int) = ((["Amy"].count "Bob" : Nat) : Int) -
          ((["Bob"].count "Bob" : Nat) : Int)) :=
  claim9_reviewer_tally
    ["Decision", "Reviewer 1", "Reviewer 2", "Reviewer 3", "E1name"]
    [["RER", "Amy", "", "", "Bob"]] ["Amy"] ["Bob"] [("Amy", 1), ("Bob", -1)]
    (by decide) (by decide) "Bob" (-1)

/-! ### Claim C7: the row filters -/

/-- Claim C7 counterexample: in `analyze_reviewers` the Decision value is
compared raw (no trim), so a whitespace-padded allowed code fails that
script's filter even though its trimmed value is in the allow-set. -/
theorem claim7_counterexample :
    arKeep ["Decision"] [" RER "] = false ∧
    pyStrip " RER " = "RER" ∧
    (["RER", "ERER"].contains (pyStrip " RER ")) = true := by
  refine ⟨?_, ?_, ?_⟩ <;> decide

/-- Claim C7 (amended): the row filters of `papers_needing_work`,
`papers_needing_review_work` and `extract_paper_scores` accept a row iff the
trimmed decision value is in the script's allow-set; `analyze_reviewers`
compares the raw value against `RER`/`ERER` without trimming, so padded
values are dropped there. -/
theorem claim7_row_filter :
    (∀ raw : String, pnwKeep raw = true ↔
      (pyStrip raw = "RER" ∨ pyStrip raw = "ERER")) ∧
    (∀ raw : String, extractKeep raw = true ↔ pyStrip raw ∈ extractAllow) ∧
    (∀ (flds row : List String) (v : String),
      arCell flds row "Decision" = some v →
      (arKeep flds row = true ↔ (v = "RER" ∨ v = "ERER"))) := by
  refine ⟨?_, ?_, ?_⟩
  · intro raw
    unfold pnwKeep
    rw [contains_iff_mem]
    simp
  · intro raw
    unfold extractKeep
    rw [contains_iff_mem]
  · intro flds row v hv
    unfold arKeep
    rw [hv]
    simp

/-- Claim C7 witness: the trimming filter and the raw filter applied at
concrete values. -/
theorem claim7_witness :
    (pnwKeep " RER " = true ↔
      (pyStrip " RER " = "RER" ∨ pyStrip " RER " = "ERER")) ∧
    (arKeep ["Decision"] ["RER"] = true ↔
      (("RER" : String) = "RER" ∨ ("RER" : String) = "ERER")) :=
  ⟨claim7_row_filter.1 " RER ",
   claim7_row_filter.2.2 ["Decision"] ["RER"] "RER" (by decide)⟩

/-! ### Claim C2: the location intersection -/

theorem mem_interSet (acc tags : List String) (t : String) :
    t ∈ interSet acc tags ↔ (t ∈ tags ∧ t ∈ acc) := by
  unfold interSet
  rw [List.mem_filter, List.mem_dedup]
  constructor
  · rintro ⟨h1, h2⟩
    exact ⟨h1, (contains_iff_mem acc t).mp h2⟩
  · rintro ⟨h1, h2⟩
    exact ⟨h1, (contains_iff_mem acc t).mpr h2⟩

theorem mem_locFold : ∀ (rest : List String) (tz : List (String × List String))
    (acc : List String) (t : String),
    t ∈ rest.foldl
        (fun acc n => if dHas tz n then interSet acc (dGetD tz n []) else acc) acc ↔
      (t ∈ acc ∧ ∀ n ∈ rest, dHas tz n = true → t ∈ dGetD tz n []) := by
  intro rest
  induction rest with
  | nil => intro tz acc t; simp
  | cons n rest ih =>
    intro tz acc t
    rw [List.foldl_cons, ih tz _ t]
    by_cases hh : dHas tz n
    · rw [if_pos hh, mem_interSet]
      constructor
      · rintro ⟨⟨h1, h2⟩, h3⟩
        refine ⟨h2, ?_⟩
        intro m hm hhm
        rcases List.mem_cons.mp hm with he | hm2
        · subst he; exact h1
        · exact h3 m hm2 hhm
      · rintro ⟨h1, h2⟩
        exact ⟨⟨h2 n (List.mem_cons_self n rest) hh, h1⟩,
          fun m hm hhm => h2 m (List.mem_cons_of_mem n hm) hhm⟩
    · rw [if_neg hh]
      constructor
      · rintro ⟨h1, h2⟩
        refine ⟨h1, ?_⟩
        intro m hm hhm
        rcases List.mem_cons.mp hm with he | hm2
        · subst he; exact absurd hhm (by simpa using hh)
        · exact h2 m hm2 hhm
      · rintro ⟨h1, h2⟩
        exact ⟨h1, fun m hm hhm => h2 m (List.mem_cons_of_mem n hm) hhm⟩

theorem interSet_nodup (acc tags : List String) : (interSet acc tags).Nodup :=
  (List.nodup_dedup tags).filter _

theorem locFold_nodup : ∀ (rest : List String) (tz : List (String × List String))
    (acc : List String), acc.Nodup →
    (rest.foldl
      (fun acc n => if dHas tz n then interSet acc (dGetD tz n []) else acc)
      acc).Nodup := by
  intro rest
  induction rest with
  | nil => intro tz acc h; exact h
  | cons n rest ih =>
    intro tz acc h
    rw [List.foldl_cons]
    refine ih tz _ ?_
    by_cases hh : dHas tz n
    · rw [if_pos hh]; exact interSet_nodup acc _
    · rw [if_neg hh]; exact h

theorem locSet_nodup (first : String) (rest : List String)
    (tz : List (String × List String)) : (locSet first rest tz).Nodup := by
  unfold locSet
  refine locFold_nodup rest tz _ ?_
  unfold locStart
  by_cases hh : dHas tz first
  · rw [if_pos hh]; exact List.nodup_dedup _
  · rw [if_neg hh]; exact List.nodup_nil

/-- Claim C2 counterexample: when the FIRST named participant (Alice) is
absent from the lookup, the script's running intersection starts from the
empty set and stays empty, although Bob is present; the spec's reading
(intersect over exactly the present participants) would give Bob's tags. -/
theorem claim2_counterexample :
    locations "Alice" ["Bob"] (extractTimeZoneData [("Bob", "US-West,EU")]) = [] ∧
    specLocations ["Alice", "Bob"] (extractTimeZoneData [("Bob", "US-West,EU")]) =
      ["EU", "US-West"] ∧
    ([] : List String) ≠ ["EU", "US-West"] := by
  refine ⟨?_, ?_, ?_⟩ <;> decide

/-- Claim C2 (amended): a tag is in the emitted location list iff the FIRST
named participant is present in the lookup, the tag is among the first
participant's tags, and the tag is among the tags of every LATER participant
present in the lookup (later absent participants are skipped; a missing first
participant forces the empty result).  The result is strictly sorted (hence
deduplicated), and the two-participant scenario gives ["US-West"]. -/
theorem claim2_location_intersection :
    (∀ (first : String) (rest : List String) (tz : List (String × List String))
       (t : String),
      t ∈ locations first rest tz ↔
        (dHas tz first = true ∧ t ∈ dGetD tz first [] ∧
          ∀ n ∈ rest, dHas tz n = true → t ∈ dGetD tz n [])) ∧
    (∀ (first : String) (rest : List String) (tz : List (String × List String)),
      List.Pairwise (fun a b : String => a < b) (locations first rest tz)) ∧
    locations "Alice" ["Bob"]
      (extractTimeZoneData [("Alice", "US-East,US-West"), ("Bob", "US-West,EU")]) =
      ["US-West"] := by
  refine ⟨?_, ?_, ?_⟩
  · intro first rest tz t
    unfold locations locSet
    rw [mem_sortStr, mem_locFold]
    unfold locStart
    by_cases hh : dHas tz first
    · rw [if_pos hh, List.mem_dedup]
      constructor
      · rintro ⟨h1, h2⟩; exact ⟨hh, h1, h2⟩
      · rintro ⟨_, h1, h2⟩; exact ⟨h1, h2⟩
    · rw [if_neg hh]
      constructor
      · rintro ⟨h1, _⟩; exact absurd h1 (List.not_mem_nil t)
      · rintro ⟨h1, _⟩; exact absurd h1 (by simpa using hh)
  · intro first rest tz
    exact sortStr_strict _ (locSet_nodup first rest tz)
  · decide

/-! ### Claim C6: the extractor on a header without the meta column -/

/-- Claim C6 counterexample: on the scenario input the extractor emits no
rows at all (the claimed two rows `ID,Pscore` and `1,4.50` are not emitted). -/
theorem claim6_counterexample :
    (extractRun ["ID", "Decision", "Pscore"] [["1", "RER", "4.50"]] []).rows = [] ∧
    ([] : List (List Cell)) ≠
      [[Cell.str "ID", Cell.str "Pscore"], [Cell.str "1", Cell.str "4.50"]] := by
  constructor
  · decide
  · decide

/-- Claim C6 (amended): on the input with header `ID,Decision,Pscore` and the
single data row `1,RER,4.50`, the extractor aborts during header validation —
the mandatory meta reviewer recommendation column (`PReviewer Recommendation`)
is absent — printing that error and emitting no output rows. -/
theorem claim6_missing_meta_column :
    extractRun ["ID", "Decision", "Pscore"] [["1", "RER", "4.50"]] [] =
      ⟨[], some metaErrMsg⟩ := by
  decide

end PcsChair

